import Mathlib

/-!
Verification development for the ABC (Asteroid Brightness in CUDA) project,
file src/cuda.c.  The numeric C code is shallowly embedded:

* quantities that the kernel only compares, adds, multiplies and divides
  (CHI_FLOAT fit values, dimensionless simplex coordinates, MJD epochs,
  magnitudes) are modelled over the rationals: every finite machine float is
  a rational number, and the embedded code applies only field operations and
  order comparisons to them;
* quantities flowing through transcendental functions (the parameter codec,
  the orientation geometry) are modelled over the reals, with exact real
  arithmetic standing for double-precision arithmetic.

Integration-step counts use the integer floor, exactly as the C assignment
of a positive double expression to `int` truncates it.  Build-time constants that
the repository does not define in src (TIME_STEP, MAX_MINIMA, ALPHA_SIM,
HUGE, the parameter-property tables) stay as explicit parameters of the
embedding, so every theorem quantifies over them.
-/

namespace Asteroid

open Real

/-- Number of free parameters, from asteroid.h (`const int N_PARAMS = 7`). -/
def N_PARAMS : ℕ := 7

/-! ## Orientation geometry (src/cuda.c lines 186-206 and 388-431)

The per-observation construction of the three body axes a, b, c from the
momentum direction (theta_M, phi_M) and the current Euler angles
(phi, theta, psi), in exact real arithmetic. -/

noncomputable section

/-- A 3-vector with real components. -/
@[ext]
structure Vec3 where
  x : ℝ
  y : ℝ
  z : ℝ

/-- Componentwise scalar product, as written in the source. -/
def dot (u v : Vec3) : ℝ := u.x * v.x + u.y * v.y + u.z * v.z

/-- Componentwise cross product, as written in the source
(e.g. `p_x = N_y*M_z - N_z*M_y; ...`, src/cuda.c lines 401-403). -/
def cross (u v : Vec3) : Vec3 :=
  ⟨u.y * v.z - u.z * v.y, u.z * v.x - u.x * v.z, u.x * v.y - u.y * v.x⟩

/-- The in-plane (Rodrigues) rotation pattern used throughout the source:
`u*cos(alpha) + v*sin(alpha)` componentwise (src/cuda.c lines 396-398,
410-412, 424-426). -/
def rot (u v : Vec3) (alpha : ℝ) : Vec3 :=
  ⟨u.x * cos alpha + v.x * sin alpha,
   u.y * cos alpha + v.y * sin alpha,
   u.z * cos alpha + v.z * sin alpha⟩

/-- The angular momentum unit vector M, src/cuda.c lines 191-193. -/
def M_vec (theta_M phi_M : ℝ) : Vec3 :=
  ⟨sin theta_M * cos phi_M, sin theta_M * sin phi_M, cos theta_M⟩

/-- The normalization factor `XM = sqrt(M_z*M_z + M_x*M_x)`, src/cuda.c:198. -/
def XM_norm (M : Vec3) : ℝ := sqrt (M.z * M.z + M.x * M.x)

/-- The inertial x-axis XM of the M frame (with XM_y = 0),
src/cuda.c lines 199-201. -/
def XM_vec (M : Vec3) : Vec3 :=
  ⟨M.z / XM_norm M, 0, -M.x / XM_norm M⟩

/-- The third axis YM = [M x XM], written out with XM_y = 0,
src/cuda.c lines 203-205. -/
def YM_vec (M : Vec3) : Vec3 :=
  ⟨M.y * (XM_vec M).z,
   M.z * (XM_vec M).x - M.x * (XM_vec M).z,
   -(M.y) * (XM_vec M).x⟩

/-- The node vector N, rotating XM towards YM by the Euler angle phi and
using XM_y = 0, src/cuda.c lines 396-398. -/
def N_vec (M : Vec3) (phi : ℝ) : Vec3 :=
  ⟨(XM_vec M).x * cos phi + (YM_vec M).x * sin phi,
   (YM_vec M).y * sin phi,
   (XM_vec M).z * cos phi + (YM_vec M).z * sin phi⟩

/-- The vector p = [N x M], src/cuda.c lines 401-403. -/
def p_vec (M : Vec3) (phi : ℝ) : Vec3 := cross (N_vec M phi) M

/-- The rotation axis a (longest body axis), rotating M towards p by the
Euler angle theta, src/cuda.c lines 410-412. -/
def a_vec (M : Vec3) (phi theta : ℝ) : Vec3 := rot M (p_vec M phi) theta

/-- The vector w = [a x N], src/cuda.c lines 415-417. -/
def w_vec (M : Vec3) (phi theta : ℝ) : Vec3 :=
  cross (a_vec M phi theta) (N_vec M phi)

/-- The second body axis b, rotating N towards w by the Euler angle psi,
src/cuda.c lines 424-426. -/
def b_vec (M : Vec3) (phi theta psi : ℝ) : Vec3 :=
  rot (N_vec M phi) (w_vec M phi theta) psi

/-- The third body axis c = [a x b], src/cuda.c lines 429-431. -/
def c_vec (M : Vec3) (phi theta psi : ℝ) : Vec3 :=
  cross (a_vec M phi theta) (b_vec M phi theta psi)

end

/-! ## chi2one, fit mode (src/cuda.c lines 81-98, 640-656, 825-840)

One observation of the obs_data struct, restricted to the fields the fit-mode
accumulation reads: magnitude V, weight w, filter id.  The modeled magnitude
Vmod computed by the forward model for the i-th observation is abstracted as
a function of the observation index. -/

/-- One observation record (struct obs_data, asteroid.h lines 52-64,
fields read by the fit-mode accumulation). -/
structure Obs where
  V : ℚ
  w : ℚ
  Filter : ℕ

/-- One iteration of the accumulation loop, src/cuda.c lines 649-655:
`y = sData[i].V - Vmod; sum_y2[m] += y*y*w; sum_y[m] += y*w; sum_w[m] += w`.
The accumulator carries the three per-filter arrays (sum_y2, sum_y, sum_w). -/
def sumsStep (Vmod : ℕ → ℚ) (acc : (ℕ → ℚ) × (ℕ → ℚ) × (ℕ → ℚ))
    (p : ℕ × Obs) : (ℕ → ℚ) × (ℕ → ℚ) × (ℕ → ℚ) :=
  let y := p.2.V - Vmod p.1
  let m := p.2.Filter
  (Function.update acc.1 m (acc.1 m + y * y * p.2.w),
   Function.update acc.2.1 m (acc.2.1 m + y * p.2.w),
   Function.update acc.2.2 m (acc.2.2 m + p.2.w))

/-- The three per-filter sums after the data loop (arrays initialized to
zero at src/cuda.c lines 93-98). -/
def chi2Sums (Vmod : ℕ → ℚ) (data : List Obs) : (ℕ → ℚ) × (ℕ → ℚ) × (ℕ → ℚ) :=
  (data.enumFrom 0).foldl (sumsStep Vmod) (fun _ => 0, fun _ => 0, fun _ => 0)

/-- chi2one in fit mode (Nplot = 0, default build: no NUDGE, no MIN_DV, no
MINIMA_TEST, single segment): the final reduction of src/cuda.c lines
828-840.  Returns the chi2a statistic together with the per-filter
zero-point offsets delta_V. -/
def chi2one_fit (Vmod : ℕ → ℚ) (data : List Obs) (N_filters : ℕ) :
    ℚ × (ℕ → ℚ) :=
  let s := chi2Sums Vmod data
  let chi2a := ∑ m ∈ Finset.range N_filters,
    (s.1 m - s.2.1 m * s.2.1 m / s.2.2 m)
  (chi2a / ((data.length : ℚ) - N_PARAMS - N_filters),
   fun m => s.2.1 m / s.2.2 m)

/-- Specification sum Σ w·y² over the observations of filter m (enumerated
from index k), with y = observed − modeled. -/
def S2from (Vmod : ℕ → ℚ) (k : ℕ) (data : List Obs) (m : ℕ) : ℚ :=
  (((data.enumFrom k).filter (fun p => p.2.Filter == m)).map
    (fun p => p.2.w * (p.2.V - Vmod p.1) ^ 2)).sum

/-- Specification sum Σ w·y over the observations of filter m. -/
def S1from (Vmod : ℕ → ℚ) (k : ℕ) (data : List Obs) (m : ℕ) : ℚ :=
  (((data.enumFrom k).filter (fun p => p.2.Filter == m)).map
    (fun p => p.2.w * (p.2.V - Vmod p.1))).sum

/-- Specification sum Σ w over the observations of filter m. -/
def S0from (Vmod : ℕ → ℚ) (k : ℕ) (data : List Obs) (m : ℕ) : ℚ :=
  (((data.enumFrom k).filter (fun p => p.2.Filter == m)).map
    (fun p => p.2.w)).sum

/-! ## Parameter codec (src/cuda.c params2x lines 946-1045, x2params lines
1050-1245), default build: no BC, no P_PHI / P_PSI / P_BOTH, no BW_BALL,
single segment (N_SEG = 1).

The sProperty table columns P_type, P_frozen, P_independent, P_periodic are
modelled as a row structure; the P_periodic column holds one of the distinct
constants NONE/PERIODIC/HARD_LEFT/HARD_RIGHT/HARD_BOTH/PERIODIC_LAM, which
the repository defines in a header outside src; they are modelled as a
six-constructor inductive.  The PI constant and float arithmetic are modelled by
exact real arithmetic. -/

/-- The boundary/periodicity classes of the P_periodic property column. -/
inductive PClass
  | free
  | periodic
  | hardLeft
  | hardRight
  | hardBoth
  | periodicLam
deriving DecidableEq

/-- The parameter types (T_* indices) of the default build. -/
inductive PType
  | theta_M
  | phi_M
  | phi_0
  | L
  | c_tumb
  | b_tumb
  | Es
  | psi_0
deriving DecidableEq

/-- One row of the sProperty table. -/
structure Row where
  ptype : PType
  frozen : ℤ
  independent : Bool
  pclass : PClass

/-- The static limits table sLimits (rows 0 = min, 1 = max), per type. -/
structure Lims where
  lo : PType → ℝ
  hi : PType → ℝ

/-- The property table: one row per parameter slot. -/
abbrev PropTable := Fin 7 → Row

/-- The sTypes table (default build: one segment): slot index of each type. -/
abbrev TypeIndex := PType → Fin 7

/-- The moment of inertia Is (shortest axis), src/cuda.c lines 209, 957,
1096: `Is = (1+b*b)/(b*b+c*c)` with Il = 1. -/
noncomputable def Is_of (b c : ℝ) : ℝ := (1 + b * b) / (b * b + c * c)

/-- The moment of inertia Ii (intermediate axis), src/cuda.c lines 211, 958,
1097: `Ii = (1+c*c)/(b*b+c*c)`. -/
noncomputable def Ii_of (b c : ℝ) : ℝ := (1 + c * c) / (b * b + c * c)

/-- Encoding of the energy parameter Es, src/cuda.c lines 1009-1015:
LAM (Es > 1/Ii) maps to the upper half, SAM to the lower half. -/
noncomputable def params2x_Es (Ii Is Es : ℝ) : ℝ :=
  if Es > 1 / Ii then 0.5 * ((Es - 1 / Ii) / (1 - 1 / Ii) + 1)
  else 0.5 * (Es - 1 / Is) / (1 / Ii - 1 / Is)

/-- Decoding of the energy parameter, src/cuda.c lines 1061 (LAM selected
exactly when x >= 0.5) and 1102-1115. -/
noncomputable def x2params_Es (Ii Is x : ℝ) : ℝ :=
  if 0.5 ≤ x then 2 * (x - 0.5) * (1 - 1 / Ii) + 1 / Ii
  else 2 * x * (1 / Ii - 1 / Is) + 1 / Is

/-- Left hard-limit test of src/cuda.c:1069: the class is HARD_BOTH or
HARD_LEFT, or PERIODIC_LAM while LAM = 0 (SAM regime). -/
def leftHard (cls : PClass) (LAM : Bool) : Prop :=
  cls = PClass.hardBoth ∨ cls = PClass.hardLeft ∨
    (LAM = false ∧ cls = PClass.periodicLam)

/-- Right hard-limit test of src/cuda.c:1070. -/
def rightHard (cls : PClass) (LAM : Bool) : Prop :=
  cls = PClass.hardBoth ∨ cls = PClass.hardRight ∨
    (LAM = false ∧ cls = PClass.periodicLam)

instance (cls : PClass) (LAM : Bool) : Decidable (leftHard cls LAM) := by
  unfold leftHard; infer_instance

instance (cls : PClass) (LAM : Bool) : Decidable (rightHard cls LAM) := by
  unfold rightHard; infer_instance

/-- The LAM update of the check loop, src/cuda.c lines 1060-1061:
`if (sProperty[i][P_type] == T_Es) LAM = x[i] >= 0.5;`. -/
noncomputable def lamUpd (prop : PropTable) (x : Fin 7 → ℝ) (L : Bool)
    (i : Fin 7) : Bool :=
  if (prop i).ptype = PType.Es then (if 0.5 ≤ x i then true else false) else L

/-- The hard-limit breach condition of src/cuda.c lines 1069-1070 for slot i
under regime LAM: the coordinate is strictly below 0 against a left hard
class, or strictly above 1 against a right hard class. -/
def breachAt (prop : PropTable) (x : Fin 7 → ℝ) (i : Fin 7) (L : Bool) : Prop :=
  (x i < 0 ∧ leftHard (prop i).pclass L) ∨
    (1 < x i ∧ rightHard (prop i).pclass L)

noncomputable instance (prop : PropTable) (x : Fin 7 → ℝ) (i : Fin 7)
    (L : Bool) : Decidable (breachAt prop x i L) := by
  unfold breachAt; infer_instance

/-- One iteration of the hard-limit check loop of x2params, src/cuda.c lines
1058-1075.  The accumulator carries (LAM, rejected); LAM is updated before
the breach test of the same iteration. -/
noncomputable def checkStep (prop : PropTable) (x : Fin 7 → ℝ)
    (acc : Bool × Bool) (i : Fin 7) : Bool × Bool :=
  let L := lamUpd prop x acc.1 i
  (L, if breachAt prop x i L then true else acc.2)

/-- The rejection signal of x2params (return value 1), src/cuda.c lines
1055-1075. -/
noncomputable def x2paramsCheck (prop : PropTable) (x : Fin 7 → ℝ) : Bool :=
  ((List.finRange 7).foldl (checkStep prop x) (false, false)).2

/-- The LAM regime left by the check loop, consumed by the conversion loop
(src/cuda.c line 1102 reads the LAM variable set at line 1061). -/
noncomputable def x2paramsLAM (prop : PropTable) (x : Fin 7 → ℝ) : Bool :=
  ((List.finRange 7).foldl (checkStep prop x) (false, false)).1

/-- The LAM regime in effect at the first occurrence of slot i of the check
scan: the fold of the LAM updates over the scan order, up to and including
slot i. -/
noncomputable def lamScan (prop : PropTable) (x : Fin 7 → ℝ) :
    Bool → List (Fin 7) → Fin 7 → Bool
  | L, [], _ => L
  | L, j :: t, i =>
      if j = i then lamUpd prop x L j else lamScan prop x (lamUpd prop x L j) t i

/-- The mutable state of the conversion loop of x2params: the params array
being written, and the local variables log_c_tumb, Is, Ii, psi_min, psi_max
(uninitialized in C; modelled as starting at 0 — the source assumes the slot
order c_tumb, b_tumb, Es, psi_0 writes each of them before any read,
src/cuda.c comment lines 948-950). -/
structure DecState where
  params : Fin 7 → ℝ
  log_c_tumb : ℝ
  Is : ℝ
  Ii : ℝ
  psi_min : ℝ
  psi_max : ℝ

/-- One iteration of the x -> params conversion loop, src/cuda.c lines
1083-1240, default build. -/
noncomputable def convStep (prop : PropTable) (lims : Lims) (sT : TypeIndex)
    (x : Fin 7 → ℝ) (LAM : Bool) (st : DecState) (i : Fin 7) : DecState :=
  let row := prop i
  if row.ptype = PType.b_tumb then
    -- src/cuda.c lines 1090-1098
    let log_b_tumb := st.log_c_tumb *
      (x i * (lims.hi row.ptype - lims.lo row.ptype) + lims.lo row.ptype)
    let b_tumb := Real.exp log_b_tumb
    let c_tumb := st.params (sT PType.c_tumb)
    { st with params := Function.update st.params i b_tumb,
              Is := Is_of b_tumb c_tumb, Ii := Ii_of b_tumb c_tumb }
  else if row.ptype = PType.Es then
    -- src/cuda.c lines 1100-1116
    if LAM then
      let Es := 2 * (x i - 0.5) * (1 - 1 / st.Ii) + 1 / st.Ii
      { st with params := Function.update st.params i Es,
                psi_min := 0, psi_max := 2 * π }
    else
      let Es := 2 * x i * (1 / st.Ii - 1 / st.Is) + 1 / st.Is
      let pmax := arctan (sqrt (st.Ii * (st.Is - 1 / Es) / st.Is / (1 / Es - st.Ii)))
      { st with params := Function.update st.params i Es,
                psi_min := -pmax, psi_max := pmax }
  else if row.ptype = PType.psi_0 then
    -- src/cuda.c lines 1118-1121
    let v := x i * (st.psi_max - st.psi_min) + st.psi_min
    { st with params := Function.update st.params i v }
  else if row.pclass = PClass.periodic then
    -- src/cuda.c lines 1136-1139
    { st with params := Function.update st.params i (x i * (2 * π)) }
  else if row.independent then
    -- src/cuda.c lines 1142-1155
    let v := x i * (lims.hi row.ptype - lims.lo row.ptype) + lims.lo row.ptype
    if row.ptype = PType.c_tumb then
      { st with params := Function.update st.params i (Real.exp v),
                log_c_tumb := v }
    else
      { st with params := Function.update st.params i v }
  else
    st

/-- The conversion loop of x2params (the params array enters with the
previous contents params0 of the callers params[] array). -/
noncomputable def x2paramsConvert (prop : PropTable) (lims : Lims)
    (sT : TypeIndex) (x : Fin 7 → ℝ) (params0 : Fin 7 → ℝ) : Fin 7 → ℝ :=
  ((List.finRange 7).foldl (convStep prop lims sT x (x2paramsLAM prop x))
    ⟨params0, 0, 0, 0, 0, 0⟩).params

/-- x2params, src/cuda.c lines 1050-1245: none models the rejection signal
(return 1), in which case the caller never evaluates the candidate. -/
noncomputable def x2params (prop : PropTable) (lims : Lims) (sT : TypeIndex)
    (x : Fin 7 → ℝ) (params0 : Fin 7 → ℝ) : Option (Fin 7 → ℝ) :=
  if x2paramsCheck prop x = true then none
  else some (x2paramsConvert prop lims sT x params0)

/-- The caller pattern of chi2_gpu (src/cuda.c lines 1470-1480, 1562-1565):
when x2params rejects, the fit function is never invoked and the candidate
value is the failure sentinel 1e30. -/
noncomputable def evalVertex (chi2 : (Fin 7 → ℝ) → ℝ) (prop : PropTable)
    (lims : Lims) (sT : TypeIndex) (x : Fin 7 → ℝ) (params0 : Fin 7 → ℝ) : ℝ :=
  match x2params prop lims sT x params0 with
  | none => 1e30
  | some p => chi2 p

/-- The mutable state of the params -> x encoding loop of params2x:
the x array being written, and the LAM / i_Es locals (uninitialized in C,
written at the Es slot, read at the psi_0 slot; modelled as starting at
(false, 0)). -/
structure EncState where
  x : Fin 7 → ℝ
  LAM : Bool
  i_Es : Fin 7

/-- One iteration of the params2x loop, src/cuda.c lines 960-1042, default
build.  The quantities b_tumb, c_tumb, Is, Ii are computed from the params
vector before the loop (lines 955-958) and passed in. -/
noncomputable def encStep (prop : PropTable) (lims : Lims) (sT : TypeIndex)
    (params : Fin 7 → ℝ) (Ii Is : ℝ) (st : EncState) (i : Fin 7) : EncState :=
  let row := prop i
  if row.frozen ≠ 0 then
    -- frozen or fully relaxed parameters encode to 0 (lines 963-968)
    { st with x := Function.update st.x i 0 }
  else if row.independent then
    if row.pclass = PClass.periodic then
      -- lines 973-977: canonical interval 0..1 of par/(2 PI)
      { st with x := Function.update st.x i (Int.fract (params i / (2 * π))) }
    else
      -- lines 978-995 (log scale for c_tumb)
      let par := if row.ptype = PType.c_tumb then Real.log (params i) else params i
      let v := (par - lims.lo row.ptype) / (lims.hi row.ptype - lims.lo row.ptype)
      { st with x := Function.update st.x i v }
  else if row.ptype = PType.b_tumb then
    -- lines 1000-1004
    let par := Real.log (params (sT PType.b_tumb)) /
      Real.log (params (sT PType.c_tumb))
    let v := (par - lims.lo row.ptype) / (lims.hi row.ptype - lims.lo row.ptype)
    { st with x := Function.update st.x i v }
  else if row.ptype = PType.Es then
    -- lines 1006-1016
    let L := if 1 / Ii < params i then true else false
    { x := Function.update st.x i (params2x_Es Ii Is (params i)), LAM := L, i_Es := i }
  else if row.ptype = PType.psi_0 then
    -- lines 1018-1032
    if st.LAM then
      { st with x := Function.update st.x i ((params i - 0) / (2 * π - 0)) }
    else
      let pmax := arctan (sqrt (Ii * (Is - 1 / params st.i_Es) / Is /
        (1 / params st.i_Es - Ii)))
      let v := (params i - -pmax) / (pmax - -pmax)
      { st with x := Function.update st.x i v }
  else
    st

/-- params2x, src/cuda.c lines 946-1045, default build: the encoded x
vector (array slots never written stay at the model initialization 0). -/
noncomputable def params2x (prop : PropTable) (lims : Lims) (sT : TypeIndex)
    (params : Fin 7 → ℝ) : Fin 7 → ℝ :=
  let b_tumb := params (sT PType.b_tumb)
  let c_tumb := params (sT PType.c_tumb)
  ((List.finRange 7).foldl
    (encStep prop lims sT params (Ii_of b_tumb c_tumb) (Is_of b_tumb c_tumb))
    ⟨fun _ => 0, false, 0⟩).x

/-! ## chi2one, minima-scoring mode (MINIMA_TEST with Nplot > 0,
src/cuda.c lines 150-155, 703-741, 758-821)

The forward model magnitude of each plotted point is abstracted as the
second component of the data pairs (MJD, Vmod); MAX_MINIMA is a build-time constant the
repository defines outside src and stays a parameter. -/

/-- The fixed observation windows of src/cuda.c lines 721-726 (the epoch is
58051.044624 + t_old[1]). -/
def inWindow (t : ℚ) : Prop :=
  (58051.044624 ≤ t ∧ t ≤ 58051.117754) ∨
  (58051.977665 ≤ t ∧ t ≤ 58052.185066) ∨
  (58053.078873 ≤ t ∧ t ≤ 58053.528586) ∨
  (58054.093274 ≤ t ∧ t ≤ 58054.514202) ∨
  (58055.234145 ≤ t ∧ t ≤ 58055.354832) ∨
  (58056.181290 ≤ t ∧ t ≤ 58056.278901)

instance (t : ℚ) : Decidable (inWindow t) := by
  unfold inWindow; infer_instance

/-- The running state of the minima-detection loop: the two-point history
t_old[0..1], V_old[0..1] and the recorded minima magnitudes Vmin. -/
structure MinState where
  t0 : ℚ
  t1 : ℚ
  V0 : ℚ
  V1 : ℚ
  Vmin : List ℚ

/-- The detection-and-window condition of src/cuda.c lines 714-727 at the
enumerated point p = (i, MJD, Vmod): it can only fire from the third point
on (i >= 2), when the previous point was a brightness minimum
(V_old[1] > V_old[0] and V_old[1] >= Vmod) inside an observation window. -/
def acceptedAt (st : MinState) (p : ℕ × ℚ × ℚ) : Prop :=
  2 ≤ p.1 ∧ st.V0 < st.V1 ∧ p.2.2 ≤ st.V1 ∧ inWindow (58051.044624 + st.t1)

instance (st : MinState) (p : ℕ × ℚ × ℚ) : Decidable (acceptedAt st p) := by
  unfold acceptedAt; infer_instance

/-- One iteration of the detection scan without the capacity check: the
first two points only fill the history (lines 707-711); afterwards an
accepted minimum appends V_old[1] + delta_V[0] to Vmin (line 731) and the
history is shifted (lines 734-738). -/
def minimaScanStep (dV0 : ℚ) (st : MinState) (p : ℕ × ℚ × ℚ) : MinState :=
  if p.1 = 0 then { st with t0 := p.2.1, V0 := p.2.2 }
  else if p.1 = 1 then { st with t1 := p.2.1, V1 := p.2.2 }
  else
    let st1 := if acceptedAt st p then
      { st with Vmin := st.Vmin ++ [st.V1 + dV0] } else st
    { st1 with t0 := st1.t1, V0 := st1.V1, t1 := p.2.1, V1 := p.2.2 }

/-- One iteration with the capacity check of src/cuda.c lines 728-730:
`N_minima++; if (N_minima > MAX_MINIMA) return -1;` — the incremented count
is tested before the minimum is recorded, and a fail aborts the loop. -/
def minimaStep (MAXM : ℕ) (dV0 : ℚ) (ost : Option MinState)
    (p : ℕ × ℚ × ℚ) : Option MinState :=
  match ost with
  | none => none
  | some st =>
    if acceptedAt st p ∧ MAXM < st.Vmin.length + 1 then none
    else some (minimaScanStep dV0 st p)

/-- The capacity-free scan over the whole data set. -/
def minimaScan (dV0 : ℚ) (data : List (ℚ × ℚ)) : MinState :=
  (data.enumFrom 0).foldl (minimaScanStep dV0) ⟨0, 0, 0, 0, []⟩

/-- The detection loop as the kernel runs it (with the MAX_MINIMA check);
none models the early return -1. -/
def minimaRun (MAXM : ℕ) (dV0 : ℚ) (data : List (ℚ × ℚ)) : Option MinState :=
  (data.enumFrom 0).foldl (minimaStep MAXM dV0) (some ⟨0, 0, 0, 0, []⟩)

/-- One step of the largest-remaining-entry scan, src/cuda.c lines 772-779:
`if (Vmin[k] > Vmax) { Vmax = Vmin[k]; kmax = k; }`. -/
def selMaxStep (acc : ℚ × ℤ) (p : ℕ × ℚ) : ℚ × ℤ :=
  if acc.1 < p.2 then (p.2, (p.1 : ℤ)) else acc

/-- The inner scan selecting the largest remaining entry, starting from
Vmax = -1e30, kmax = -1 (src/cuda.c lines 770-771). -/
def selectMax (l : List ℚ) : ℚ × ℤ :=
  (l.enumFrom 0).foldl selMaxStep (-1e30, -1)

/-- The selection loop extracting the N_min deepest minima, erasing each
found entry to -2e30 (src/cuda.c lines 763-784); none models the defensive
`if (kmax == -1) return -1` path. -/
def pickBest : ℕ → List ℚ → Option (List ℚ)
  | 0, _ => some []
  | n + 1, l =>
    let r := selectMax l
    if r.2 = -1 then none
    else (pickBest n (l.set r.2.toNat (-2e30))).map (fun vb => r.1 :: vb)

/-- The observed-minima calibration magnitudes of src/cuda.c lines
791-815. -/
def thresholds : List ℚ := [25.715, 25.254, 25.234, 25.212, 24.940, 24.846, 24.834]

/-- The score: how many of the selected minima (rank by rank) are at least
as deep as the calibration minima — the unrolled comparison chain with the
early returns of src/cuda.c lines 788-816 compares Vbest[j] with the j-th
threshold for exactly j < N_min, since the chain returns at j = N_minima. -/
def scoreOf (Vbest : List ℚ) : ℕ :=
  (List.zip Vbest thresholds).countP (fun q => decide (q.2 ≤ q.1))

/-- chi2one in minima-scoring mode (MINIMA_TEST, Nplot > 0), src/cuda.c
lines 703-741 and 758-821: -1 on capacity overflow (or the defensive
selection failure), 0 when no minima were recorded, otherwise the integer
score of the min(7, N_minima) deepest minima. -/
def chi2one_minima (MAXM : ℕ) (dV0 : ℚ) (data : List (ℚ × ℚ)) : ℚ :=
  match minimaRun MAXM dV0 data with
  | none => -1
  | some st =>
    if st.Vmin.length = 0 then 0
    else
      match pickBest (min 7 st.Vmin.length) st.Vmin with
      | none => -1
      | some Vbest => (scoreOf Vbest : ℚ)

/-! ## RK4 step-size selection (src/cuda.c lines 310-314)

`N_steps = (t2 - t1) / TIME_STEP + 1;` assigns a positive double expression
to `int`, truncating toward zero, i.e. taking the floor; then
`h = (t2 - t1) / N_steps;`. -/

/-- Integration step count between two consecutive epochs, src/cuda.c:312.
The C truncation of the positive double `(t2 - t1) / TIME_STEP + 1` is the
floor of that value. -/
def N_steps (t1 t2 TIME_STEP : ℚ) : ℤ :=
  ⌊(t2 - t1) / TIME_STEP⌋ + 1

/-- Equidistant step size, src/cuda.c:314. -/
def h_step (t1 t2 TIME_STEP : ℚ) : ℚ :=
  (t2 - t1) / (N_steps t1 t2 TIME_STEP : ℚ)

/-! ## Per-block serial reduction and best-result update
(src/cuda.c lines 1689-1702 and 1729-1742)

The reduction scans `s_f[0..blockDim-1]` keeping the strictly smallest value
seen so far, starting from `smin = HUGE`, `thread_min = 0`; afterwards
`d_f[blockIdx.x]` is overwritten by `smin` only when `smin < d_f`. -/

/-- One step of the serial reduction loop, src/cuda.c:1694-1701:
`if (s_f[j] < smin) { smin = s_f[j]; thread_min = j; }`. -/
def reduceStep (acc : ℚ × ℕ) (p : ℕ × ℚ) : ℚ × ℕ :=
  if p.2 < acc.1 then (p.2, p.1) else acc

/-- The serial reduction over the per-instance fit values of one block,
initialized with `thread_min = 0` and `smin = init` (the HUGE build-time constant).
Returns the pair (smin, thread_min). -/
def serialReduction (sf : List ℚ) (init : ℚ) : ℚ × ℕ :=
  sf.enum.foldl reduceStep (init, 0)

/-- Cross-launch update of the stored best fit value, src/cuda.c:1729-1734:
`if (... smin < d_f[blockIdx.x]) d_f[blockIdx.x] = smin;`. -/
def updateBest (df smin : ℚ) : ℚ :=
  if smin < df then smin else df

/-! ## Simplex vertex ranking (src/cuda.c lines 1495-1521)

For each output rank the code scans all vertices linearly, keeping any
not-yet-used vertex whose fit value is less than OR EQUAL to the running
minimum (`f[j2] <= fmin`), starting from `fmin = 1e30`, `jmin = -1`. -/

/-- One step of the inner ranking scan, src/cuda.c:1505-1512:
`if (ind2[j2]==0 && f[j2] <= fmin) { fmin = f[j2]; jmin = j2; }`.
The accumulator is (fmin, jmin) with jmin = -1 when uninitialized. -/
def rankScanStep (f : Fin 8 → ℚ) (avail : Fin 8 → Bool) (acc : ℚ × ℤ) (j2 : Fin 8) :
    ℚ × ℤ :=
  if avail j2 = true ∧ f j2 ≤ acc.1 then (f j2, (j2 : ℤ)) else acc

/-- The inner scan of the sorting loop over all 8 vertices:
returns (fmin, jmin) after examining j2 = 0..7 in order. -/
def rankScan (f : Fin 8 → ℚ) (avail : Fin 8 → Bool) : ℚ × ℤ :=
  (List.finRange 8).foldl (rankScanStep f avail) (1e30, -1)

/-! ## Simplex centroid and reflection (src/cuda.c lines 1523-1531, 1554-1560)

The centroid loop sums over ALL N_PARAMS+1 = 8 vertices and divides by
N_PARAMS+1; the reflection move uses it as base point. -/

/-- Simplex centroid as the code computes it, src/cuda.c:1523-1531:
the mean of all 8 vertices (the worst vertex included). -/
def centroid (x : Fin 8 → Fin 7 → ℚ) (i : Fin 7) : ℚ :=
  (∑ j, x j i) / (N_PARAMS + 1)

/-- Centroid excluding the worst vertex, as the specification describes it
(spec 4.6: centroid excluding the worst vertex).  Stated from the words of
the spec, for comparison with the centroid of the source. -/
def centroidExclWorst (x : Fin 8 → Fin 7 → ℚ) (worst : Fin 8) (i : Fin 7) : ℚ :=
  (∑ j ∈ Finset.univ.erase worst, x j i) / N_PARAMS

/-- The reflected point, src/cuda.c:1559:
`x_r[i] = x0[i] + ALPHA_SIM*(x0[i] - x[ind[N_PARAMS]][i])`, with `x0` the
centroid of all 8 vertices and `ind[N_PARAMS]` the worst vertex. -/
def reflectPoint (alpha : ℚ) (x : Fin 8 → Fin 7 → ℚ) (worst : Fin 8) (i : Fin 7) : ℚ :=
  centroid x i + alpha * (centroid x i - x worst i)

/-! ### Theorems -/

/-- C5 counterexample: at a gap equal to one full TIME_STEP (t1 = 0, t2 = 1,
TIME_STEP = 1) the code takes 2 steps, while ceil((t2-t1)/TIME_STEP) = 1.
The claimed step count `ceil` is wrong on exact multiples of TIME_STEP. -/
theorem N_steps_ne_ceil_on_exact_multiple :
    N_steps 0 1 1 ≠ ⌈((1 : ℚ) - 0) / 1⌉ := by
  norm_num [N_steps]

/-- C5 (amended): between consecutive epochs t1 < t2 the RK4 integration
uses N_steps = floor((t2-t1)/TIME_STEP) + 1 steps — equal to
ceil((t2-t1)/TIME_STEP) whenever the gap is not an exact multiple of
TIME_STEP — and the equal step size h = (t2-t1)/N_steps satisfies
h ≤ TIME_STEP, the steps exactly covering the gap. -/
theorem N_steps_h_spec (t1 t2 TS : ℚ) (hTS : 0 < TS) (ht : t1 < t2) :
    N_steps t1 t2 TS = ⌊(t2 - t1) / TS⌋ + 1 ∧
    0 < N_steps t1 t2 TS ∧
    (Int.fract ((t2 - t1) / TS) ≠ 0 → N_steps t1 t2 TS = ⌈(t2 - t1) / TS⌉) ∧
    h_step t1 t2 TS ≤ TS ∧
    (N_steps t1 t2 TS : ℚ) * h_step t1 t2 TS = t2 - t1 := by
  set q : ℚ := (t2 - t1) / TS with hq
  have hΔ : 0 < t2 - t1 := by linarith
  have hq0 : 0 < q := div_pos hΔ hTS
  have hfl : (0 : ℤ) ≤ ⌊q⌋ := Int.floor_nonneg.mpr hq0.le
  have hNpos : 0 < N_steps t1 t2 TS := by
    simp only [N_steps, ← hq]; omega
  have hNq : (N_steps t1 t2 TS : ℚ) ≠ 0 := by
    exact_mod_cast hNpos.ne'
  refine ⟨rfl, hNpos, ?_, ?_, ?_⟩
  · intro hfr
    have h1 : ⌈q⌉ ≤ ⌊q⌋ + 1 := Int.ceil_le_floor_add_one q
    have h2 : ⌊q⌋ ≤ ⌈q⌉ := Int.floor_le_ceil q
    have h3 : ⌊q⌋ ≠ ⌈q⌉ := by
      intro he
      apply hfr
      have : q ≤ (⌊q⌋ : ℚ) := by
        rw [he]; exact_mod_cast Int.le_ceil q
      have : q = (⌊q⌋ : ℚ) := le_antisymm this (Int.floor_le q)
      simp [Int.fract, ← this]
    simp only [N_steps, ← hq]; omega
  · -- h = (t2-t1)/N < (t2-t1)/q = TS since q < N
    have hqN : q < (N_steps t1 t2 TS : ℚ) := by
      simp [N_steps, ← hq, Int.lt_floor_add_one q]
    have hlt : (t2 - t1) / (N_steps t1 t2 TS : ℚ) < (t2 - t1) / q :=
      div_lt_div_of_pos_left hΔ hq0 hqN
    have hTSeq : (t2 - t1) / q = TS := by
      rw [hq]; field_simp
    calc h_step t1 t2 TS = (t2 - t1) / (N_steps t1 t2 TS : ℚ) := rfl
      _ ≤ (t2 - t1) / q := hlt.le
      _ = TS := hTSeq
  · simp only [h_step]
    field_simp

/-- C5 witness: concrete instantiation with TIME_STEP = 1/100 and the gap
t2 - t1 = 3/200 (one and a half steps): the code takes 2 steps of size
3/400 ≤ 1/100 covering the gap exactly, matching ceil here. -/
theorem N_steps_h_spec_witness :
    N_steps 0 (3/200) (1/100) = ⌊((3:ℚ)/200 - 0) / (1/100)⌋ + 1 ∧
    0 < N_steps 0 (3/200) (1/100) ∧
    (Int.fract (((3:ℚ)/200 - 0) / (1/100)) ≠ 0 →
      N_steps 0 (3/200) (1/100) = ⌈((3:ℚ)/200 - 0) / (1/100)⌉) ∧
    h_step 0 (3/200) (1/100) ≤ 1/100 ∧
    (N_steps 0 (3/200) (1/100) : ℚ) * h_step 0 (3/200) (1/100) = 3/200 - 0 :=
  N_steps_h_spec 0 (3/200) (1/100) (by norm_num) (by norm_num)

/-- Invariant of the serial reduction loop: folding `reduceStep` over the
enumerated (from k) tail either leaves the accumulator unchanged, or returns
a strictly smaller value found at the first position attaining it. -/
theorem reduce_go (sf : List ℚ) : ∀ (k : ℕ) (a : ℚ) (j : ℕ) (r : ℚ × ℕ),
    r = (sf.enumFrom k).foldl reduceStep (a, j) →
    r.1 ≤ a ∧
    (∀ v ∈ sf, r.1 ≤ v) ∧
    (r = (a, j) ∨
      ∃ m, sf.get? m = some r.1 ∧ r.2 = k + m ∧ r.1 < a ∧
        ∀ m2 < m, ∀ v, sf.get? m2 = some v → r.1 < v) := by
  induction sf with
  | nil =>
    intro k a j r hr
    simp only [List.enumFrom_nil, List.foldl_nil] at hr
    subst hr
    simp
  | cons x t ih =>
    intro k a j r hr
    simp only [List.enumFrom_cons, List.foldl_cons] at hr
    by_cases hx : x < a
    · -- the head updates the running minimum
      rw [show reduceStep (a, j) (k, x) = (x, k) by simp [reduceStep, hx]] at hr
      obtain ⟨h1, h2, h3⟩ := ih (k + 1) x k r hr
      refine ⟨h1.trans hx.le, ?_, ?_⟩
      · intro v hv
        rcases List.mem_cons.mp hv with rfl | hv
        · exact h1
        · exact h2 v hv
      · rcases h3 with he | ⟨m, hm1, hm2, hm3, hm4⟩
        · -- the tail did not update: the minimum is x, at position 0
          right
          refine ⟨0, ?_, ?_, ?_, ?_⟩
          · rw [he]; rfl
          · rw [he]; simp
          · rw [he]; exact hx
          · intro m2 hm2; omega
        · right
          refine ⟨m + 1, by simpa using hm1, by omega, hm3.trans hx, ?_⟩
          intro m2 hlt v hv
          cases m2 with
          | zero =>
            rw [List.get?_cons_zero] at hv
            cases hv
            exact hm3
          | succ m3 =>
            exact hm4 m3 (by omega) v (by simpa using hv)
    · -- head does not update
      rw [show reduceStep (a, j) (k, x) = (a, j) by simp [reduceStep, hx]] at hr
      obtain ⟨h1, h2, h3⟩ := ih (k + 1) a j r hr
      refine ⟨h1, ?_, ?_⟩
      · intro v hv
        rcases List.mem_cons.mp hv with rfl | hv
        · exact h1.trans (not_lt.mp hx)
        · exact h2 v hv
      · rcases h3 with he | ⟨m, hm1, hm2, hm3, hm4⟩
        · exact Or.inl he
        · right
          refine ⟨m + 1, by simpa using hm1, by omega, hm3, ?_⟩
          intro m2 hlt v hv
          cases m2 with
          | zero =>
            rw [List.get?_cons_zero] at hv
            cases hv
            exact hm3.trans_le (not_lt.mp hx)
          | succ m3 =>
            exact hm4 m3 (by omega) v (by simpa using hv)

/-- Folding the best-result update over any sequence of launches never
increases the stored value. -/
theorem foldl_updateBest_le (smins : List ℚ) : ∀ df : ℚ,
    smins.foldl updateBest df ≤ df := by
  induction smins with
  | nil => intro df; simp
  | cons s t ih =>
    intro df
    simp only [List.foldl_cons]
    refine (ih (updateBest df s)).trans ?_
    by_cases h : s < df
    · rw [updateBest, if_pos h]; exact h.le
    · rw [updateBest, if_neg h]

/-- C4: for every block, the serial reduction selects the minimum fit value
over the instances, attained at the lowest instance index among ties; the
stored best value is overwritten only by a strictly smaller one, hence never
increases across launches, and the failure sentinel 1e30 can never displace
a previously stored valid (at most 1e30) result. -/
theorem group_reduction_monotone (sf : List ℚ) (init df : ℚ)
    (hne : sf ≠ []) (hb : ∀ v ∈ sf, v ≤ 1e30) (hinit : 1e30 < init) :
    (∀ v ∈ sf, (serialReduction sf init).1 ≤ v) ∧
    sf.get? (serialReduction sf init).2 = some (serialReduction sf init).1 ∧
    (∀ m2 < (serialReduction sf init).2, ∀ v, sf.get? m2 = some v →
      (serialReduction sf init).1 < v) ∧
    updateBest df (serialReduction sf init).1 ≤ df ∧
    (updateBest df (serialReduction sf init).1 ≠ df →
      (serialReduction sf init).1 < df) ∧
    (df ≤ 1e30 → updateBest df 1e30 = df) ∧
    (∀ smins : List ℚ, smins.foldl updateBest df ≤ df) := by
  obtain ⟨h1, h2, h3⟩ := reduce_go sf 0 init 0 (serialReduction sf init) rfl
  -- the left disjunct is impossible: the first element is strictly below init
  have hmain : ∃ m, sf.get? m = some (serialReduction sf init).1 ∧
      (serialReduction sf init).2 = m ∧
      ∀ m2 < m, ∀ v, sf.get? m2 = some v → (serialReduction sf init).1 < v := by
    rcases h3 with he | ⟨m, hm1, hm2, hm3, hm4⟩
    · exfalso
      obtain ⟨v0, hv0⟩ := List.exists_mem_of_ne_nil sf hne
      have hle : (serialReduction sf init).1 ≤ v0 := h2 v0 hv0
      rw [he] at hle
      exact absurd (hle.trans (hb v0 hv0)) (not_le.mpr hinit)
    · exact ⟨m, hm1, by omega, hm4⟩
  obtain ⟨m, hg, hj, hfirst⟩ := hmain
  have hupd1 : updateBest df (serialReduction sf init).1 ≤ df := by
    by_cases h : (serialReduction sf init).1 < df
    · rw [updateBest, if_pos h]; exact h.le
    · rw [updateBest, if_neg h]
  refine ⟨h2, by rw [hj]; exact hg,
    fun m2 hlt v hv => hfirst m2 (by omega) v hv, hupd1, ?_, ?_, ?_⟩
  · intro hne2
    by_contra hnl
    rw [updateBest, if_neg hnl] at hne2
    exact hne2 rfl
  · intro hdf
    rw [updateBest, if_neg (not_lt.mpr hdf)]
  · intro smins
    exact foldl_updateBest_le smins df

/-- C4 witness: instances [3, 2, 2] with HUGE = 1e38 and stored best 5/2:
the reduction attains the minimum 2 at the lowest tied index. -/
theorem group_reduction_monotone_witness :
    List.get? [3, 2, 2] (serialReduction [3, 2, 2] 1e38).2 =
      some (serialReduction [(3:ℚ), 2, 2] 1e38).1 :=
  (group_reduction_monotone [3, 2, 2] 1e38 (5/2) (by simp) (by norm_num)
    (by norm_num)).2.1

/-- C7 counterexample: with all 8 vertices tied at fit value 5 and all
available, the first ranking scan selects index 7 — the LAST tied vertex in
the linear scan (the comparison is f[j2] <= fmin), not the first one, so the
tied vertex with the lower index is NOT ranked ahead. -/
theorem rankScan_tie_picks_last :
    (rankScan (fun _ => 5) (fun _ => true)).2 = 7 ∧
    (rankScan (fun _ => 5) (fun _ => true)).2 ≠ 0 := by
  constructor <;> norm_num [rankScan, rankScanStep, List.finRange, List.foldl,
    List.ofFn, Fin.foldr, Fin.foldr.loop]

/-- Invariant of the inner ranking scan: folding over a strictly increasing
list of vertex indices, starting from a jmin below all of them, yields the
running minimum of the available fit values, attained at the LAST index
among ties (because the update condition uses a non-strict comparison). -/
theorem rankScan_go (f : Fin 8 → ℚ) (avail : Fin 8 → Bool) :
    ∀ (l : List (Fin 8)) (acc : ℚ × ℤ),
      (∀ j ∈ l, acc.2 < (j : ℤ)) →
      l.Pairwise (· < ·) →
      (l.foldl (rankScanStep f avail) acc).1 ≤ acc.1 ∧
      acc.2 ≤ (l.foldl (rankScanStep f avail) acc).2 ∧
      (∀ j ∈ l, avail j = true → (l.foldl (rankScanStep f avail) acc).1 ≤ f j) ∧
      (l.foldl (rankScanStep f avail) acc = acc ∨
        ∃ jm ∈ l, l.foldl (rankScanStep f avail) acc = (f jm, (jm : ℤ)) ∧
          avail jm = true) ∧
      (∀ j ∈ l, avail j = true →
        f j ≤ (l.foldl (rankScanStep f avail) acc).1 →
        (j : ℤ) ≤ (l.foldl (rankScanStep f avail) acc).2) := by
  intro l
  induction l with
  | nil => intro acc _ _; simp
  | cons x t ih =>
    intro acc hbelow hpw
    simp only [List.foldl_cons]
    have hpw2 := (List.pairwise_cons.mp hpw).2
    have hxlt := (List.pairwise_cons.mp hpw).1
    by_cases hup : avail x = true ∧ f x ≤ acc.1
    · -- the scan updates at the head
      rw [show rankScanStep f avail acc x = (f x, (x : ℤ)) by
        simp [rankScanStep, hup]]
      obtain ⟨g1, g2, g3, g4, g5⟩ := ih (f x, (x : ℤ))
        (fun j hj => by
          show ((x : ℕ) : ℤ) < ((j : ℕ) : ℤ)
          exact_mod_cast Fin.lt_iff_val_lt_val.mp (hxlt j hj)) hpw2
      refine ⟨g1.trans hup.2, ?_, ?_, ?_, ?_⟩
      · have : ((x : ℤ)) ≤ (t.foldl (rankScanStep f avail) (f x, (x : ℤ))).2 := g2
        have hax : acc.2 < (x : ℤ) := hbelow x (List.mem_cons_self x t)
        omega
      · intro j hj ha
        rcases List.mem_cons.mp hj with rfl | hj
        · exact g1
        · exact g3 j hj ha
      · rcases g4 with he | ⟨jm, hjm, hee, haa⟩
        · exact Or.inr ⟨x, List.mem_cons_self x t, he, hup.1⟩
        · exact Or.inr ⟨jm, List.mem_cons_of_mem x hjm, hee, haa⟩
      · intro j hj ha hle
        rcases List.mem_cons.mp hj with rfl | hj
        · exact g2
        · exact g5 j hj ha hle
    · -- no update at the head
      rw [show rankScanStep f avail acc x = acc by
        simp only [rankScanStep, if_neg hup]]
      obtain ⟨g1, g2, g3, g4, g5⟩ := ih acc
        (fun j hj => hbelow j (List.mem_cons_of_mem x hj)) hpw2
      refine ⟨g1, g2, ?_, ?_, ?_⟩
      · intro j hj ha
        rcases List.mem_cons.mp hj with rfl | hj
        · -- avail x true but f x > acc.1
          have hfx : acc.1 < f j := by
            by_contra hcon
            exact hup ⟨ha, not_lt.mp hcon⟩
          exact g1.trans hfx.le
        · exact g3 j hj ha
      · rcases g4 with he | ⟨jm, hjm, hee, haa⟩
        · exact Or.inl he
        · exact Or.inr ⟨jm, List.mem_cons_of_mem x hjm, hee, haa⟩
      · intro j hj ha hle
        rcases List.mem_cons.mp hj with rfl | hj
        · exfalso
          have hfx : acc.1 < f j := by
            by_contra hcon
            exact hup ⟨ha, not_lt.mp hcon⟩
          exact absurd (hle.trans g1) (not_le.mpr hfx)
        · exact g5 j hj ha hle

/-- C7 (amended): when the simplex vertices are ranked, a tie between equal
fit values is broken toward the LAST tied vertex found in the linear scan
(the update comparison is non-strict, f[j2] <= fmin): the scan returns the
minimum available fit value, attained at the HIGHEST tied vertex index. -/
theorem rankScan_min_last_tie (f : Fin 8 → ℚ) (avail : Fin 8 → Bool)
    (hav : ∃ j, avail j = true ∧ f j ≤ 1e30) :
    ∃ jm : Fin 8, rankScan f avail = (f jm, (jm : ℤ)) ∧ avail jm = true ∧
      (∀ j, avail j = true → f jm ≤ f j) ∧
      (∀ j, avail j = true → f j = f jm → (j : ℤ) ≤ (jm : ℤ)) := by
  obtain ⟨g1, g2, g3, g4, g5⟩ := rankScan_go f avail (List.finRange 8) (1e30, -1)
    (fun j _ => by show (-1 : ℤ) < ((j : ℕ) : ℤ); omega)
    (List.pairwise_lt_finRange 8)
  have hmem : ∀ j : Fin 8, j ∈ List.finRange 8 := List.mem_finRange
  obtain ⟨j0, hj0a, hj0b⟩ := hav
  rcases g4 with he | ⟨jm, _, hee, haa⟩
  · -- impossible: the scan must have updated at j0
    exfalso
    have h5 := g5 j0 (hmem j0) hj0a (by rw [he]; exact hj0b)
    rw [he] at h5
    have : (0 : ℤ) ≤ (j0 : ℤ) := Int.ofNat_nonneg _
    omega
  · refine ⟨jm, hee, haa, ?_, ?_⟩
    · intro j ha
      have := g3 j (hmem j) ha
      rw [hee] at this
      exact this
    · intro j ha hfe
      have := g5 j (hmem j) ha (by rw [hee]; exact hfe.le)
      rw [hee] at this
      exact this

/-- C7 amended-claim witness: fit values (5,5,5,5,5,5,5,4) with vertex 7 the
unique minimum: the scan reports it. -/
theorem rankScan_min_last_tie_witness :
    ∃ jm : Fin 8,
      rankScan (fun j => if j = 7 then 4 else 5) (fun _ => true) =
        ((fun j : Fin 8 => if j = 7 then (4 : ℚ) else 5) jm, (jm : ℤ)) ∧
      (fun _ : Fin 8 => true) jm = true ∧
      (∀ j, (fun _ : Fin 8 => true) j = true →
        (fun j : Fin 8 => if j = 7 then (4 : ℚ) else 5) jm ≤
          (fun j : Fin 8 => if j = 7 then (4 : ℚ) else 5) j) ∧
      (∀ j, (fun _ : Fin 8 => true) j = true →
        (fun j : Fin 8 => if j = 7 then (4 : ℚ) else 5) j =
          (fun j : Fin 8 => if j = 7 then (4 : ℚ) else 5) jm → (j : ℤ) ≤ (jm : ℤ)) :=
  rankScan_min_last_tie (fun j => if j = 7 then 4 else 5) (fun _ => true)
    ⟨7, rfl, by norm_num⟩

/-- C6 counterexample: simplex with vertex 7 (the worst) at coordinate 8 and
all other vertices at 0: the centroid the code uses as reflection base is 1,
while the centroid excluding the worst vertex is 0 — the code does NOT
exclude the worst vertex. -/
theorem centroid_includes_worst :
    centroid (fun j _ => if j = 7 then 8 else 0) 0 = 1 ∧
    centroidExclWorst (fun j _ => if j = 7 then 8 else 0) 7 0 = 0 ∧
    centroid (fun j _ => if j = 7 then 8 else 0) 0 ≠
      centroidExclWorst (fun j _ => if j = 7 then 8 else 0) 7 0 := by
  refine ⟨?_, ?_, ?_⟩ <;>
    norm_num [centroid, centroidExclWorst, N_PARAMS, Fin.sum_univ_succ,
      Finset.sum_erase_eq_sub]

/-- C6 (amended): the centroid used as base point for the reflection,
expansion and contraction moves is the mean of ALL N_PARAMS+1 = 8 vertices,
the worst vertex included: it equals the weighted combination
(7·centroid-excluding-worst + worst)/8, and the reflected point mixes the
worst vertex into its base accordingly. -/
theorem centroid_all_vertices (x : Fin 8 → Fin 7 → ℚ) (worst : Fin 8)
    (alpha : ℚ) (i : Fin 7) :
    centroid x i =
      (N_PARAMS * centroidExclWorst x worst i + x worst i) / (N_PARAMS + 1) ∧
    reflectPoint alpha x worst i =
      (1 + alpha) * (N_PARAMS * centroidExclWorst x worst i + x worst i) /
        (N_PARAMS + 1) - alpha * x worst i := by
  have hc : centroid x i =
      (N_PARAMS * centroidExclWorst x worst i + x worst i) / (N_PARAMS + 1) := by
    simp only [centroid, centroidExclWorst, N_PARAMS,
      Finset.sum_erase_eq_sub (Finset.mem_univ worst)]
    push_cast
    ring
  refine ⟨hc, ?_⟩
  rw [reflectPoint, hc]
  simp only [N_PARAMS]
  push_cast
  ring

/-- Unfolding of the per-filter specification sums on a cons cell. -/
theorem Sfrom_cons (Vmod : ℕ → ℚ) (k : ℕ) (o : Obs) (t : List Obs) (m : ℕ) :
    S2from Vmod k (o :: t) m =
      (if o.Filter = m then o.w * (o.V - Vmod k) ^ 2 else 0) +
        S2from Vmod (k + 1) t m ∧
    S1from Vmod k (o :: t) m =
      (if o.Filter = m then o.w * (o.V - Vmod k) else 0) +
        S1from Vmod (k + 1) t m ∧
    S0from Vmod k (o :: t) m =
      (if o.Filter = m then o.w else 0) + S0from Vmod (k + 1) t m := by
  refine ⟨?_, ?_, ?_⟩ <;>
  · simp only [S2from, S1from, S0from, List.enumFrom_cons, List.filter_cons]
    by_cases hm : o.Filter = m <;> simp [hm]

/-- The accumulation loop computes exactly the per-filter specification sums
on top of whatever is already in the accumulator. -/
theorem chi2Sums_go (Vmod : ℕ → ℚ) (data : List Obs) : ∀ (k : ℕ)
    (acc : (ℕ → ℚ) × (ℕ → ℚ) × (ℕ → ℚ)) (m : ℕ),
    ((data.enumFrom k).foldl (sumsStep Vmod) acc).1 m
        = acc.1 m + S2from Vmod k data m ∧
    ((data.enumFrom k).foldl (sumsStep Vmod) acc).2.1 m
        = acc.2.1 m + S1from Vmod k data m ∧
    ((data.enumFrom k).foldl (sumsStep Vmod) acc).2.2 m
        = acc.2.2 m + S0from Vmod k data m := by
  induction data with
  | nil =>
    intro k acc m
    simp [S2from, S1from, S0from]
  | cons o t ih =>
    intro k acc m
    simp only [List.enumFrom_cons, List.foldl_cons]
    obtain ⟨i1, i2, i3⟩ := ih (k + 1) (sumsStep Vmod acc (k, o)) m
    obtain ⟨c1, c2, c3⟩ := Sfrom_cons Vmod k o t m
    by_cases hm : o.Filter = m
    · rw [if_pos hm] at c1 c2 c3
      subst hm
      rw [i1, i2, i3, c1, c2, c3]
      refine ⟨?_, ?_, ?_⟩ <;>
      · simp only [sumsStep, Function.update_same]
        ring
    · rw [if_neg hm] at c1 c2 c3
      rw [i1, i2, i3, c1, c2, c3]
      refine ⟨?_, ?_, ?_⟩ <;>
      · simp only [sumsStep, Function.update_noteq (Ne.symm hm)]
        ring

/-- C1: in fit mode the chi2one loop accumulates, for each filter m, the
sums Σw·y², Σw·y, Σw over exactly the observations of that filter with
y = observed − modeled; the zero-point offset of each filter is Σw·y/Σw and
the returned statistic is Σ_m (Σw·y² − (Σw·y)²/Σw) divided by
(N_data − 7 − N_filters). -/
theorem chi2one_fit_spec (Vmod : ℕ → ℚ) (data : List Obs) (N_filters : ℕ)
    (hdf : 0 < (data.length : ℚ) - N_PARAMS - N_filters)
    (hfil : ∀ o ∈ data, o.Filter < N_filters) :
    (chi2one_fit Vmod data N_filters).1 =
      (∑ m ∈ Finset.range N_filters,
        (S2from Vmod 0 data m -
          S1from Vmod 0 data m ^ 2 / S0from Vmod 0 data m)) /
        ((data.length : ℚ) - N_PARAMS - N_filters) ∧
    ∀ m < N_filters, (chi2one_fit Vmod data N_filters).2 m =
      S1from Vmod 0 data m / S0from Vmod 0 data m := by
  have h := chi2Sums_go Vmod data 0 (fun _ => 0, fun _ => 0, fun _ => 0)
  have h1 : ∀ m, (chi2Sums Vmod data).1 m = S2from Vmod 0 data m := by
    intro m; have := (h m).1; rw [chi2Sums, this]; ring
  have h2 : ∀ m, (chi2Sums Vmod data).2.1 m = S1from Vmod 0 data m := by
    intro m; have := (h m).2.1; rw [chi2Sums, this]; ring
  have h3 : ∀ m, (chi2Sums Vmod data).2.2 m = S0from Vmod 0 data m := by
    intro m; have := (h m).2.2; rw [chi2Sums, this]; ring
  constructor
  · simp only [chi2one_fit]
    congr 1
    refine Finset.sum_congr rfl fun m _ => ?_
    rw [h1, h2, h3]
    ring
  · intro m _
    simp only [chi2one_fit]
    rw [h2, h3]

/-- C1 witness: nine identical single-filter observations with zero model
magnitude; the degrees-of-freedom precondition 9 − 7 − 1 > 0 holds. -/
theorem chi2one_fit_spec_witness :
    (chi2one_fit (fun _ => 0) (List.replicate 9 ⟨5, 1, 0⟩) 1).2 0 =
      S1from (fun _ => 0) 0 (List.replicate 9 ⟨5, 1, 0⟩) 0 /
        S0from (fun _ => 0) 0 (List.replicate 9 ⟨5, 1, 0⟩) 0 :=
  (chi2one_fit_spec (fun _ => 0) (List.replicate 9 ⟨5, 1, 0⟩) 1
    (by norm_num [N_PARAMS])
    (fun o ho => by rw [List.eq_of_mem_replicate ho]; norm_num)).2 0
    (by norm_num)

/-- The scalar product is symmetric. -/
theorem dot_comm (u v : Vec3) : dot u v = dot v u := by
  simp only [dot]; ring

/-- A cross product is orthogonal to its first factor. -/
theorem dot_cross_left (u v : Vec3) : dot (cross u v) u = 0 := by
  simp only [dot, cross]; ring

/-- A cross product is orthogonal to its second factor. -/
theorem dot_cross_right (u v : Vec3) : dot (cross u v) v = 0 := by
  simp only [dot, cross]; ring

/-- Lagrange identity: squared norm of a cross product. -/
theorem dot_cross_sq (u v : Vec3) :
    dot (cross u v) (cross u v) = dot u u * dot v v - dot u v ^ 2 := by
  simp only [dot, cross]; ring

/-- An in-plane rotation of an orthonormal pair is a unit vector. -/
theorem dot_rot_self (u v : Vec3) (alpha : ℝ) (hu : dot u u = 1)
    (hv : dot v v = 1) (huv : dot u v = 0) :
    dot (rot u v alpha) (rot u v alpha) = 1 := by
  simp only [dot, rot] at hu hv huv ⊢
  linear_combination (cos alpha) ^ 2 * hu + (sin alpha) ^ 2 * hv +
    2 * cos alpha * sin alpha * huv + sin_sq_add_cos_sq alpha

/-- Scalar products against an in-plane rotation split linearly. -/
theorem dot_rot_left (u v w : Vec3) (alpha : ℝ) :
    dot (rot u v alpha) w = cos alpha * dot u w + sin alpha * dot v w := by
  simp only [dot, rot]; ring

/-- C9: the three body axes a, b, c built by the orientation geometry are
exactly orthonormal in real arithmetic, for every Euler-angle triple
(phi, theta, psi) and every momentum direction whose XM normalization
factor is nonzero (the validity condition: the code divides by it). -/
theorem axes_orthonormal (theta_M phi_M phi theta psi : ℝ)
    (h : XM_norm (M_vec theta_M phi_M) ≠ 0) :
    dot (a_vec (M_vec theta_M phi_M) phi theta)
        (a_vec (M_vec theta_M phi_M) phi theta) = 1 ∧
    dot (b_vec (M_vec theta_M phi_M) phi theta psi)
        (b_vec (M_vec theta_M phi_M) phi theta psi) = 1 ∧
    dot (c_vec (M_vec theta_M phi_M) phi theta psi)
        (c_vec (M_vec theta_M phi_M) phi theta psi) = 1 ∧
    dot (a_vec (M_vec theta_M phi_M) phi theta)
        (b_vec (M_vec theta_M phi_M) phi theta psi) = 0 ∧
    dot (a_vec (M_vec theta_M phi_M) phi theta)
        (c_vec (M_vec theta_M phi_M) phi theta psi) = 0 ∧
    dot (b_vec (M_vec theta_M phi_M) phi theta psi)
        (c_vec (M_vec theta_M phi_M) phi theta psi) = 0 := by
  set M : Vec3 := M_vec theta_M phi_M with hM_def
  -- M is a unit vector
  have hM : dot M M = 1 := by
    simp only [hM_def, dot, M_vec]
    linear_combination (sin theta_M) ^ 2 * sin_sq_add_cos_sq phi_M +
      sin_sq_add_cos_sq theta_M
  -- the normalization factor squares to M_z^2 + M_x^2
  have hs2 : XM_norm M * XM_norm M = M.z * M.z + M.x * M.x :=
    Real.mul_self_sqrt
      (add_nonneg (mul_self_nonneg M.z) (mul_self_nonneg M.x))
  -- XM is a unit vector orthogonal to M
  have hXM : dot (XM_vec M) (XM_vec M) = 1 := by
    have hq : dot (XM_vec M) (XM_vec M) =
        (M.z * M.z + M.x * M.x) / (XM_norm M * XM_norm M) := by
      simp only [dot, XM_vec]; ring
    rw [hq, ← hs2, div_self (mul_ne_zero h h)]
  have hXMM : dot (XM_vec M) M = 0 := by
    simp only [dot, XM_vec]; ring
  -- YM = [M x XM] is a unit vector orthogonal to M and XM
  have hYMeq : YM_vec M = cross M (XM_vec M) := by
    ext <;> simp [YM_vec, cross, XM_vec]
  have hYM : dot (YM_vec M) (YM_vec M) = 1 := by
    rw [hYMeq, dot_cross_sq, hM, hXM, dot_comm M (XM_vec M), hXMM]
    norm_num
  have hYMM : dot (YM_vec M) M = 0 := by
    rw [hYMeq]; exact dot_cross_left M (XM_vec M)
  have hXMYM : dot (XM_vec M) (YM_vec M) = 0 := by
    rw [hYMeq, dot_comm]; exact dot_cross_right M (XM_vec M)
  -- N is the rotation of the orthonormal pair (XM, YM) by phi
  have hNeq : N_vec M phi = rot (XM_vec M) (YM_vec M) phi := by
    ext <;> simp [N_vec, rot, XM_vec, YM_vec]
  have hN : dot (N_vec M phi) (N_vec M phi) = 1 := by
    rw [hNeq]; exact dot_rot_self _ _ _ hXM hYM hXMYM
  have hNM : dot (N_vec M phi) M = 0 := by
    rw [hNeq, dot_rot_left, hXMM, hYMM]; ring
  -- p = [N x M] is a unit vector orthogonal to N and M
  have hp : dot (p_vec M phi) (p_vec M phi) = 1 := by
    rw [p_vec, dot_cross_sq, hN, hM, hNM]; norm_num
  have hpN : dot (p_vec M phi) (N_vec M phi) = 0 := dot_cross_left _ _
  have hpM : dot (p_vec M phi) M = 0 := dot_cross_right _ _
  -- a is the rotation of the orthonormal pair (M, p) by theta
  have ha : dot (a_vec M phi theta) (a_vec M phi theta) = 1 := by
    rw [a_vec]
    exact dot_rot_self _ _ _ hM hp (by rw [dot_comm]; exact hpM)
  have haN : dot (a_vec M phi theta) (N_vec M phi) = 0 := by
    rw [a_vec, dot_rot_left, dot_comm M (N_vec M phi), hNM, hpN]; ring
  -- w = [a x N] is a unit vector orthogonal to a and N
  have hw : dot (w_vec M phi theta) (w_vec M phi theta) = 1 := by
    rw [w_vec, dot_cross_sq, ha, hN, haN]; norm_num
  have hwa : dot (w_vec M phi theta) (a_vec M phi theta) = 0 := dot_cross_left _ _
  have hwN : dot (w_vec M phi theta) (N_vec M phi) = 0 := dot_cross_right _ _
  -- b is the rotation of the orthonormal pair (N, w) by psi
  have hb : dot (b_vec M phi theta psi) (b_vec M phi theta psi) = 1 := by
    rw [b_vec]
    exact dot_rot_self _ _ _ hN hw (by rw [dot_comm]; exact hwN)
  have hba : dot (b_vec M phi theta psi) (a_vec M phi theta) = 0 := by
    rw [b_vec, dot_rot_left, dot_comm (N_vec M phi) (a_vec M phi theta), haN, hwa]
    ring
  -- c = [a x b] closes the orthonormal triple
  have hc : dot (c_vec M phi theta psi) (c_vec M phi theta psi) = 1 := by
    rw [c_vec, dot_cross_sq, ha, hb, dot_comm _ (b_vec M phi theta psi), hba]
    norm_num
  have hca : dot (a_vec M phi theta) (c_vec M phi theta psi) = 0 := by
    rw [dot_comm]; exact dot_cross_left _ _
  have hcb : dot (b_vec M phi theta psi) (c_vec M phi theta psi) = 0 := by
    rw [dot_comm]; exact dot_cross_right _ _
  exact ⟨ha, hb, hc, by rw [dot_comm]; exact hba, hca, hcb⟩

/-- C9 witness: the momentum direction theta_M = phi_M = 0 (M along z) and
all Euler angles zero give a valid configuration: XM_norm = 1 there, and
the a axis is exactly unit. -/
theorem axes_orthonormal_witness :
    dot (a_vec (M_vec 0 0) 0 0) (a_vec (M_vec 0 0) 0 0) = 1 :=
  (axes_orthonormal 0 0 0 0 0
    (by simp [XM_norm, M_vec])).1

/-- With axes 0 < c < b < 1 (a = 1) the derived inertia pair satisfies
Il = 1 < Ii < Is. -/
theorem inertia_order (b c : ℝ) (hc : 0 < c) (hcb : c < b) (hb : b < 1) :
    1 < Ii_of b c ∧ Ii_of b c < Is_of b c := by
  have hb0 : 0 < b := hc.trans hcb
  have hden : 0 < b * b + c * c := by positivity
  have hcb2 : c * c < b * b := by nlinarith
  constructor
  · rw [Ii_of, lt_div_iff₀ hden]
    nlinarith
  · rw [Ii_of, Is_of, div_lt_div_iff₀ hden hden]
    nlinarith [mul_lt_mul_of_pos_right hcb2 hden]

/-- C8: for every inertia pair derived from axis parameters with
0 < c < b < a = 1, encoding the energy Es = 1/Ii yields exactly x = 0.5;
encode maps LAM energies (1/Ii, 1] into (0.5, 1] and SAM energies
[1/Is, 1/Ii) into [0, 0.5); decode selects LAM exactly when x >= 0.5 and
inverts the matching encode branch, so decode after encode is the identity
on every energy value. -/
theorem Es_codec_consistent (b c : ℝ) (hc : 0 < c) (hcb : c < b) (hb : b < 1) :
    params2x_Es (Ii_of b c) (Is_of b c) (1 / Ii_of b c) = 0.5 ∧
    (∀ Es, 1 / Ii_of b c < Es → Es ≤ 1 →
      0.5 < params2x_Es (Ii_of b c) (Is_of b c) Es ∧
      params2x_Es (Ii_of b c) (Is_of b c) Es ≤ 1) ∧
    (∀ Es, 1 / Is_of b c ≤ Es → Es < 1 / Ii_of b c →
      0 ≤ params2x_Es (Ii_of b c) (Is_of b c) Es ∧
      params2x_Es (Ii_of b c) (Is_of b c) Es < 0.5) ∧
    (∀ Es, x2params_Es (Ii_of b c) (Is_of b c)
      (params2x_Es (Ii_of b c) (Is_of b c) Es) = Es) := by
  obtain ⟨hI, hIS⟩ := inertia_order b c hc hcb hb
  set I : ℝ := Ii_of b c
  set S : ℝ := Is_of b c
  have hIpos : (0 : ℝ) < I := lt_trans one_pos hI
  have hSpos : (0 : ℝ) < S := lt_trans hIpos hIS
  have hI1 : (0 : ℝ) < 1 - 1 / I := by
    have : 1 / I < 1 := by
      rw [div_lt_one hIpos]; exact hI
    linarith
  have hd2 : (0 : ℝ) < 1 / I - 1 / S := by
    have : 1 / S < 1 / I := one_div_lt_one_div_of_lt hIpos hIS
    linarith
  have henc_mid : params2x_Es I S (1 / I) = 0.5 := by
    rw [params2x_Es, if_neg (lt_irrefl (1 / I)), mul_div_assoc,
      div_self hd2.ne']
    norm_num
  have henc_lam : ∀ Es, 1 / I < Es → 0.5 < params2x_Es I S Es := by
    intro Es h1
    rw [params2x_Es, if_pos h1]
    have hr : 0 < (Es - 1 / I) / (1 - 1 / I) := div_pos (by linarith) hI1
    linarith
  have henc_sam_lt : ∀ Es, Es < 1 / I → params2x_Es I S Es < 0.5 := by
    intro Es h2
    rw [params2x_Es, if_neg (not_lt.mpr h2.le), mul_div_assoc]
    have hr : (Es - 1 / S) / (1 / I - 1 / S) < 1 := by
      rw [div_lt_one hd2]; linarith
    linarith
  refine ⟨henc_mid, ?_, ?_, ?_⟩
  · intro Es h1 h2
    refine ⟨henc_lam Es h1, ?_⟩
    rw [params2x_Es, if_pos h1]
    have hr : (Es - 1 / I) / (1 - 1 / I) ≤ 1 := by
      rw [div_le_one hI1]; linarith
    linarith
  · intro Es h1 h2
    refine ⟨?_, henc_sam_lt Es h2⟩
    rw [params2x_Es, if_neg (not_lt.mpr h2.le), mul_div_assoc]
    have hr : 0 ≤ (Es - 1 / S) / (1 / I - 1 / S) :=
      div_nonneg (by linarith) hd2.le
    linarith
  · intro Es
    have hIm : I - 1 ≠ 0 := sub_ne_zero.mpr (ne_of_gt hI)
    have hSI : S - I ≠ 0 := sub_ne_zero.mpr hIS.ne'
    by_cases hgt : 1 / I < Es
    · have hge : (0.5 : ℝ) ≤ params2x_Es I S Es := (henc_lam Es hgt).le
      rw [x2params_Es, if_pos hge, params2x_Es, if_pos hgt]
      field_simp [hIm]
      ring
    · by_cases heq : Es = 1 / I
      · subst heq
        rw [henc_mid, x2params_Es, if_pos le_rfl]
        ring
      · have hlt : Es < 1 / I := lt_of_le_of_ne (not_lt.mp hgt) heq
        have hnge : ¬ (0.5 : ℝ) ≤ params2x_Es I S Es :=
          not_le.mpr (henc_sam_lt Es hlt)
        rw [x2params_Es, if_neg hnge, params2x_Es, if_neg (not_lt.mpr hlt.le)]
        field_simp [hSI]
        ring

/-- C8 witness: the concrete axes b = 3/4, c = 1/2 (inertia pair
Ii = 20/13, Is = 25/13): encoding Es = 1/Ii gives exactly 0.5. -/
theorem Es_codec_consistent_witness :
    params2x_Es (Ii_of (3/4) (1/2)) (Is_of (3/4) (1/2))
      (1 / Ii_of (3/4) (1/2)) = 0.5 :=
  (Es_codec_consistent (3/4) (1/2) (by norm_num) (by norm_num)
    (by norm_num)).1

/-- The LAM component of the check loop ignores the rejection flag: it is
the fold of the per-slot LAM updates. -/
theorem checkFold_fst (prop : PropTable) (x : Fin 7 → ℝ) :
    ∀ (l : List (Fin 7)) (L r : Bool),
      (l.foldl (checkStep prop x) (L, r)).1 = l.foldl (lamUpd prop x) L := by
  intro l
  induction l with
  | nil => intro L r; rfl
  | cons j t ih =>
    intro L r
    simp only [List.foldl_cons, checkStep]
    exact ih _ _

/-- Characterization of the rejection flag of the check loop: over a
duplicate-free scan list it is raised exactly when some slot breaches its
class under the LAM regime in effect when that slot is scanned. -/
theorem check_go (prop : PropTable) (x : Fin 7 → ℝ) :
    ∀ (l : List (Fin 7)), l.Nodup → ∀ (L r : Bool),
      ((l.foldl (checkStep prop x) (L, r)).2 = true ↔
        r = true ∨ ∃ i ∈ l, breachAt prop x i (lamScan prop x L l i)) := by
  intro l
  induction l with
  | nil => intro _ L r; simp
  | cons j t ih =>
    intro hnd L r
    obtain ⟨hj, hndt⟩ := List.nodup_cons.mp hnd
    simp only [List.foldl_cons, checkStep]
    rw [ih hndt]
    have hscanj : lamScan prop x L (j :: t) j = lamUpd prop x L j := by
      simp [lamScan]
    have hscant : ∀ i ∈ t, lamScan prop x L (j :: t) i =
        lamScan prop x (lamUpd prop x L j) t i := by
      intro i hi
      have hij : j ≠ i := fun he => hj (he ▸ hi)
      simp [lamScan, hij]
    constructor
    · rintro (hr | ⟨i, hi, hb⟩)
      · by_cases hbj : breachAt prop x j (lamUpd prop x L j)
        · exact Or.inr ⟨j, List.mem_cons_self j t, by rw [hscanj]; exact hbj⟩
        · rw [if_neg hbj] at hr
          exact Or.inl hr
      · exact Or.inr ⟨i, List.mem_cons_of_mem j hi, by rw [hscant i hi]; exact hb⟩
    · rintro (hr | ⟨i, hi, hb⟩)
      · left
        by_cases hbj : breachAt prop x j (lamUpd prop x L j)
        · rw [if_pos hbj]
        · rw [if_neg hbj]; exact hr
      · rcases List.mem_cons.mp hi with rfl | hit
        · left
          rw [hscanj] at hb
          rw [if_pos hb]
        · right
          exact ⟨i, hit, by rw [← hscant i hit]; exact hb⟩

/-- C3: in the default build, x2params rejects exactly when some coordinate
strictly breaches its boundary class (x[i] < 0 against HARD_LEFT/HARD_BOTH,
or PERIODIC_LAM in the SAM regime in effect at that slot of the scan;
x[i] > 1 against HARD_RIGHT/HARD_BOTH or PERIODIC_LAM in the SAM regime);
every coordinate vector inside the closed box [0,1]^7 is accepted (so exact
0 and 1 pass), and a rejected candidate is never evaluated by the fit
function: its value is the sentinel 1e30 for every fit function. -/
theorem x2params_reject_iff (prop : PropTable) (lims : Lims) (sT : TypeIndex)
    (x : Fin 7 → ℝ) (params0 : Fin 7 → ℝ) :
    (x2paramsCheck prop x = true ↔
      ∃ i : Fin 7, (x i < 0 ∧ leftHard (prop i).pclass
          (lamScan prop x false (List.finRange 7) i)) ∨
        (1 < x i ∧ rightHard (prop i).pclass
          (lamScan prop x false (List.finRange 7) i))) ∧
    ((∀ i, 0 ≤ x i ∧ x i ≤ 1) →
      x2params prop lims sT x params0 =
        some (x2paramsConvert prop lims sT x params0)) ∧
    (x2paramsCheck prop x = true →
      ∀ chi2 : (Fin 7 → ℝ) → ℝ,
        evalVertex chi2 prop lims sT x params0 = 1e30) := by
  have hiff : x2paramsCheck prop x = true ↔
      ∃ i : Fin 7, breachAt prop x i (lamScan prop x false (List.finRange 7) i) := by
    rw [x2paramsCheck, check_go prop x (List.finRange 7) (List.nodup_finRange 7)]
    simp [List.mem_finRange]
  refine ⟨by rw [hiff]; exact Iff.rfl, ?_, ?_⟩
  · intro hbox
    have hf : x2paramsCheck prop x ≠ true := by
      intro hc
      rw [hiff] at hc
      obtain ⟨i, (⟨hlt, _⟩ | ⟨hgt, _⟩)⟩ := hc
      · exact absurd (hbox i).1 (not_le.mpr hlt)
      · exact absurd (hbox i).2 (not_le.mpr hgt)
    rw [x2params, if_neg hf]
  · intro hrej chi2
    rw [evalVertex, x2params, if_pos hrej]

/-- C3 witness: a table of seven independent non-frozen slots with no
boundary class (NONE) and all coordinates 1/2: the candidate is accepted. -/
theorem x2params_reject_iff_witness :
    x2params (fun _ => ⟨PType.L, 0, true, PClass.free⟩)
        ⟨fun _ => 0, fun _ => 1⟩ (fun _ => 0) (fun _ => 1/2) (fun _ => 0) =
      some (x2paramsConvert (fun _ => ⟨PType.L, 0, true, PClass.free⟩)
        ⟨fun _ => 0, fun _ => 1⟩ (fun _ => 0) (fun _ => 1/2) (fun _ => 0)) :=
  (x2params_reject_iff (fun _ => ⟨PType.L, 0, true, PClass.free⟩)
    ⟨fun _ => 0, fun _ => 1⟩ (fun _ => 0) (fun _ => 1/2) (fun _ => 0)).2.1
    (fun i => by norm_num)

/-- Each encode iteration writes only its own slot of the x array. -/
theorem encStep_x_ne (prop : PropTable) (lims : Lims) (sT : TypeIndex)
    (params : Fin 7 → ℝ) (Ii Is : ℝ) (st : EncState) (i k : Fin 7)
    (hki : k ≠ i) :
    (encStep prop lims sT params Ii Is st i).x k = st.x k := by
  simp [encStep, apply_ite EncState.x, ite_apply, Function.update_noteq hki]

/-- Folding the encode step over a list that does not contain slot k leaves
the x array unchanged at k. -/
theorem encFold_x_not_mem (prop : PropTable) (lims : Lims) (sT : TypeIndex)
    (params : Fin 7 → ℝ) (Ii Is : ℝ) :
    ∀ (l : List (Fin 7)) (st : EncState) (k : Fin 7), k ∉ l →
      ((l.foldl (encStep prop lims sT params Ii Is) st).x k = st.x k) := by
  intro l
  induction l with
  | nil => intro st k _; rfl
  | cons j t ih =>
    intro st k hk
    simp only [List.foldl_cons]
    have hkj : k ≠ j := fun h => hk (by rw [h]; exact List.mem_cons_self j t)
    rw [ih _ k (fun h => hk (List.mem_cons_of_mem j h)),
      encStep_x_ne _ _ _ _ _ _ _ _ _ hkj]

/-- The encode iteration at an independent non-frozen slot writes the value
prescribed by src/cuda.c lines 970-995, regardless of the loop state. -/
theorem encStep_x_self_indep (prop : PropTable) (lims : Lims) (sT : TypeIndex)
    (params : Fin 7 → ℝ) (Ii Is : ℝ) (st : EncState) (i : Fin 7)
    (hfr : (prop i).frozen = 0) (hind : (prop i).independent = true) :
    (encStep prop lims sT params Ii Is st i).x i =
      if (prop i).pclass = PClass.periodic then Int.fract (params i / (2 * π))
      else ((if (prop i).ptype = PType.c_tumb then Real.log (params i)
              else params i) - lims.lo (prop i).ptype) /
        (lims.hi (prop i).ptype - lims.lo (prop i).ptype) := by
  unfold encStep
  rw [if_neg (by simp [hfr]), if_pos hind]
  by_cases hp : (prop i).pclass = PClass.periodic
  · rw [if_pos hp, if_pos hp]
    simp
  · rw [if_neg hp, if_neg hp]
    simp

/-- The encoded coordinate of an independent non-frozen slot. -/
theorem params2x_apply_indep (prop : PropTable) (lims : Lims) (sT : TypeIndex)
    (params : Fin 7 → ℝ) (i : Fin 7)
    (hfr : (prop i).frozen = 0) (hind : (prop i).independent = true) :
    params2x prop lims sT params i =
      if (prop i).pclass = PClass.periodic then Int.fract (params i / (2 * π))
      else ((if (prop i).ptype = PType.c_tumb then Real.log (params i)
              else params i) - lims.lo (prop i).ptype) /
        (lims.hi (prop i).ptype - lims.lo (prop i).ptype) := by
  rw [params2x]
  have hgen : ∀ (l : List (Fin 7)), l.Nodup → i ∈ l → ∀ (st : EncState),
      ((l.foldl (encStep prop lims sT params
          (Ii_of (params (sT PType.b_tumb)) (params (sT PType.c_tumb)))
          (Is_of (params (sT PType.b_tumb)) (params (sT PType.c_tumb)))) st).x i =
        if (prop i).pclass = PClass.periodic then Int.fract (params i / (2 * π))
        else ((if (prop i).ptype = PType.c_tumb then Real.log (params i)
                else params i) - lims.lo (prop i).ptype) /
          (lims.hi (prop i).ptype - lims.lo (prop i).ptype)) := by
    intro l
    induction l with
    | nil => intro _ hmem; exact absurd hmem (List.not_mem_nil i)
    | cons j t ih =>
      intro hnd hmem st
      obtain ⟨hj, hndt⟩ := List.nodup_cons.mp hnd
      simp only [List.foldl_cons]
      rcases List.mem_cons.mp hmem with rfl | hit
      · rw [encFold_x_not_mem _ _ _ _ _ _ t _ i hj,
          encStep_x_self_indep _ _ _ _ _ _ _ _ hfr hind]
      · exact ih hndt hit _
  exact hgen (List.finRange 7) (List.nodup_finRange 7) (List.mem_finRange i) _

/-- Each conversion iteration writes only its own slot of the params
array. -/
theorem convStep_params_ne (prop : PropTable) (lims : Lims) (sT : TypeIndex)
    (x : Fin 7 → ℝ) (LAM : Bool) (st : DecState) (i k : Fin 7) (hki : k ≠ i) :
    (convStep prop lims sT x LAM st i).params k = st.params k := by
  simp [convStep, apply_ite DecState.params, ite_apply,
    Function.update_noteq hki]

/-- Folding the conversion step over a list that does not contain slot k
leaves the params array unchanged at k. -/
theorem convFold_params_not_mem (prop : PropTable) (lims : Lims)
    (sT : TypeIndex) (x : Fin 7 → ℝ) (LAM : Bool) :
    ∀ (l : List (Fin 7)) (st : DecState) (k : Fin 7), k ∉ l →
      ((l.foldl (convStep prop lims sT x LAM) st).params k = st.params k) := by
  intro l
  induction l with
  | nil => intro st k _; rfl
  | cons j t ih =>
    intro st k hk
    simp only [List.foldl_cons]
    have hkj : k ≠ j := fun h => hk (by rw [h]; exact List.mem_cons_self j t)
    rw [ih _ k (fun h => hk (List.mem_cons_of_mem j h)),
      convStep_params_ne _ _ _ _ _ _ _ _ hkj]

/-- The conversion iteration at an independent slot of a non-special type
writes the value prescribed by src/cuda.c lines 1136-1155, regardless of the
loop state. -/
theorem convStep_params_self_indep (prop : PropTable) (lims : Lims)
    (sT : TypeIndex) (x : Fin 7 → ℝ) (LAM : Bool) (st : DecState) (i : Fin 7)
    (hind : (prop i).independent = true)
    (hsp1 : (prop i).ptype ≠ PType.b_tumb)
    (hsp2 : (prop i).ptype ≠ PType.Es)
    (hsp3 : (prop i).ptype ≠ PType.psi_0) :
    (convStep prop lims sT x LAM st i).params i =
      if (prop i).pclass = PClass.periodic then x i * (2 * π)
      else if (prop i).ptype = PType.c_tumb then
        Real.exp (x i * (lims.hi (prop i).ptype - lims.lo (prop i).ptype) +
          lims.lo (prop i).ptype)
      else x i * (lims.hi (prop i).ptype - lims.lo (prop i).ptype) +
        lims.lo (prop i).ptype := by
  unfold convStep
  rw [if_neg hsp1, if_neg hsp2, if_neg hsp3]
  by_cases hp : (prop i).pclass = PClass.periodic
  · rw [if_pos hp, if_pos hp]
    simp
  · rw [if_neg hp, if_neg hp, if_pos hind]
    by_cases hct : (prop i).ptype = PType.c_tumb
    · rw [if_pos hct, if_pos hct]
      simp
    · rw [if_neg hct, if_neg hct]
      simp

/-- The decoded physical value of an independent slot of a non-special
type. -/
theorem x2paramsConvert_apply_indep (prop : PropTable) (lims : Lims)
    (sT : TypeIndex) (x : Fin 7 → ℝ) (params0 : Fin 7 → ℝ) (i : Fin 7)
    (hind : (prop i).independent = true)
    (hsp1 : (prop i).ptype ≠ PType.b_tumb)
    (hsp2 : (prop i).ptype ≠ PType.Es)
    (hsp3 : (prop i).ptype ≠ PType.psi_0) :
    x2paramsConvert prop lims sT x params0 i =
      if (prop i).pclass = PClass.periodic then x i * (2 * π)
      else if (prop i).ptype = PType.c_tumb then
        Real.exp (x i * (lims.hi (prop i).ptype - lims.lo (prop i).ptype) +
          lims.lo (prop i).ptype)
      else x i * (lims.hi (prop i).ptype - lims.lo (prop i).ptype) +
        lims.lo (prop i).ptype := by
  rw [x2paramsConvert]
  have hgen : ∀ (l : List (Fin 7)), l.Nodup → i ∈ l → ∀ (st : DecState),
      ((l.foldl (convStep prop lims sT x (x2paramsLAM prop x)) st).params i =
        if (prop i).pclass = PClass.periodic then x i * (2 * π)
        else if (prop i).ptype = PType.c_tumb then
          Real.exp (x i * (lims.hi (prop i).ptype - lims.lo (prop i).ptype) +
            lims.lo (prop i).ptype)
        else x i * (lims.hi (prop i).ptype - lims.lo (prop i).ptype) +
          lims.lo (prop i).ptype) := by
    intro l
    induction l with
    | nil => intro _ hmem; exact absurd hmem (List.not_mem_nil i)
    | cons j t ih =>
      intro hnd hmem st
      obtain ⟨hj, hndt⟩ := List.nodup_cons.mp hnd
      simp only [List.foldl_cons]
      rcases List.mem_cons.mp hmem with rfl | hit
      · rw [convFold_params_not_mem _ _ _ _ _ t _ i hj,
          convStep_params_self_indep _ _ _ _ _ _ _ hind hsp1 hsp2 hsp3]
      · exact ih hndt hit _
  exact hgen (List.finRange 7) (List.nodup_finRange 7) (List.mem_finRange i) _

/-- C2: for every non-frozen independent slot of a non-derived type, with
nondegenerate static limits (and a positive physical value when the type is
the log-encoded c_tumb), decoding the encoded vector reproduces the original
physical value exactly: for periodic classes up to the canonical
representative mod 2 pi, otherwise identically. -/
theorem roundtrip_independent (prop : PropTable) (lims : Lims)
    (sT : TypeIndex) (params params0 : Fin 7 → ℝ) (i : Fin 7)
    (hfr : (prop i).frozen = 0)
    (hind : (prop i).independent = true)
    (hsp1 : (prop i).ptype ≠ PType.b_tumb)
    (hsp2 : (prop i).ptype ≠ PType.Es)
    (hsp3 : (prop i).ptype ≠ PType.psi_0)
    (hlim : lims.lo (prop i).ptype ≠ lims.hi (prop i).ptype)
    (hpos : (prop i).ptype = PType.c_tumb → 0 < params i)
    (hchk : x2paramsCheck prop (params2x prop lims sT params) = false) :
    x2params prop lims sT (params2x prop lims sT params) params0 =
      some (x2paramsConvert prop lims sT (params2x prop lims sT params)
        params0) ∧
    ((prop i).pclass = PClass.periodic →
      x2paramsConvert prop lims sT (params2x prop lims sT params) params0 i =
        2 * π * Int.fract (params i / (2 * π))) ∧
    ((prop i).pclass ≠ PClass.periodic →
      x2paramsConvert prop lims sT (params2x prop lims sT params) params0 i =
        params i) := by
  have hd : lims.hi (prop i).ptype - lims.lo (prop i).ptype ≠ 0 :=
    sub_ne_zero.mpr (Ne.symm hlim)
  have henc := params2x_apply_indep prop lims sT params i hfr hind
  have hdec := x2paramsConvert_apply_indep prop lims sT
    (params2x prop lims sT params) params0 i hind hsp1 hsp2 hsp3
  refine ⟨by rw [x2params, hchk]; simp, ?_, ?_⟩
  · intro hp
    rw [hdec, if_pos hp, henc, if_pos hp]
    ring
  · intro hp
    rw [hdec, if_neg hp, henc, if_neg hp]
    by_cases hct : (prop i).ptype = PType.c_tumb
    · rw [if_pos hct, if_pos hct, div_mul_cancel₀ _ hd]
      rw [sub_add_cancel, Real.exp_log (hpos hct)]
    · rw [if_neg hct, if_neg hct, div_mul_cancel₀ _ hd, sub_add_cancel]

/-- C2 witness: a table of seven independent non-frozen slots of type L with
limits [0, 10] and physical value 3 on every slot: the roundtrip returns 3
at slot 0. -/
theorem roundtrip_independent_witness :
    x2paramsConvert (fun _ => ⟨PType.L, 0, true, PClass.free⟩)
        ⟨fun _ => 0, fun _ => 10⟩ (fun _ => 0)
        (params2x (fun _ => ⟨PType.L, 0, true, PClass.free⟩)
          ⟨fun _ => 0, fun _ => 10⟩ (fun _ => 0) (fun _ => 3))
        (fun _ => 0) 0 = 3 :=
  (roundtrip_independent (fun _ => ⟨PType.L, 0, true, PClass.free⟩)
    ⟨fun _ => 0, fun _ => 10⟩ (fun _ => 0) (fun _ => 3) (fun _ => 0) 0
    rfl rfl (by simp) (by simp) (by simp) (by norm_num)
    (by simp)
    (by
      have h := (x2params_reject_iff (fun _ => ⟨PType.L, 0, true, PClass.free⟩)
        ⟨fun _ => 0, fun _ => 10⟩ (fun _ => 0)
        (params2x (fun _ => ⟨PType.L, 0, true, PClass.free⟩)
          ⟨fun _ => 0, fun _ => 10⟩ (fun _ => 0) (fun _ => 3))
        (fun _ => 0)).1
      cases hb : x2paramsCheck (fun _ => ⟨PType.L, 0, true, PClass.free⟩)
          (params2x (fun _ => ⟨PType.L, 0, true, PClass.free⟩)
            ⟨fun _ => 0, fun _ => 10⟩ (fun _ => 0) (fun _ => 3)) with
      | false => rfl
      | true =>
        exfalso
        obtain ⟨i, hbr⟩ := h.mp hb
        rcases hbr with ⟨_, hcls⟩ | ⟨_, hcls⟩ <;>
          simp [leftHard, rightHard] at hcls)).2.2 (by simp)

/-- A detection step either appends one recorded minimum (when accepted) or
leaves the record unchanged. -/
theorem minimaScanStep_Vmin (dV0 : ℚ) (st : MinState) (p : ℕ × ℚ × ℚ) :
    (minimaScanStep dV0 st p).Vmin =
      if acceptedAt st p then st.Vmin ++ [st.V1 + dV0] else st.Vmin := by
  unfold minimaScanStep
  by_cases h0 : p.1 = 0
  · rw [if_pos h0]
    have hna : ¬ acceptedAt st p := by simp [acceptedAt, h0]
    simp [hna]
  · rw [if_neg h0]
    by_cases h1 : p.1 = 1
    · rw [if_pos h1]
      have hna : ¬ acceptedAt st p := by simp [acceptedAt, h1]
      simp [hna]
    · rw [if_neg h1]
      by_cases hacc : acceptedAt st p
      · simp [hacc]
      · simp [hacc]

/-- The number of recorded minima never decreases along the scan. -/
theorem minimaScan_len_mono (dV0 : ℚ) : ∀ (l : List (ℕ × ℚ × ℚ)) (st : MinState),
    st.Vmin.length ≤ ((l.foldl (minimaScanStep dV0) st)).Vmin.length := by
  intro l
  induction l with
  | nil => intro st; exact le_rfl
  | cons p t ih =>
    intro st
    simp only [List.foldl_cons]
    refine le_trans ?_ (ih (minimaScanStep dV0 st p))
    rw [minimaScanStep_Vmin]
    by_cases hacc : acceptedAt st p
    · simp [hacc]
    · simp [hacc]

/-- The aborted detection loop stays aborted. -/
theorem minimaFold_none (MAXM : ℕ) (dV0 : ℚ) :
    ∀ (l : List (ℕ × ℚ × ℚ)), l.foldl (minimaStep MAXM dV0) none = none := by
  intro l
  induction l with
  | nil => rfl
  | cons p t ih => simpa [minimaStep] using ih

/-- The capacity-checked detection loop aborts exactly when the capacity-free
scan records more than MAX_MINIMA minima, and otherwise computes exactly the
capacity-free scan state. -/
theorem minimaRun_go (MAXM : ℕ) (dV0 : ℚ) :
    ∀ (l : List (ℕ × ℚ × ℚ)) (st : MinState), st.Vmin.length ≤ MAXM →
      l.foldl (minimaStep MAXM dV0) (some st) =
        if MAXM < (l.foldl (minimaScanStep dV0) st).Vmin.length then none
        else some (l.foldl (minimaScanStep dV0) st) := by
  intro l
  induction l with
  | nil =>
    intro st hst
    simp only [List.foldl_nil]
    rw [if_neg (not_lt.mpr hst)]
  | cons p t ih =>
    intro st hst
    simp only [List.foldl_cons]
    by_cases hfail : acceptedAt st p ∧ MAXM < st.Vmin.length + 1
    · -- overflow at this step: the run aborts and the scan total exceeds
      rw [show minimaStep MAXM dV0 (some st) p = none by
        simp [minimaStep, if_pos hfail]]
      rw [minimaFold_none]
      have hlen : (minimaScanStep dV0 st p).Vmin.length = st.Vmin.length + 1 := by
        rw [minimaScanStep_Vmin, if_pos hfail.1]
        simp
      have : MAXM < ((t.foldl (minimaScanStep dV0)
          (minimaScanStep dV0 st p))).Vmin.length := by
        refine lt_of_lt_of_le hfail.2 ?_
        rw [← hlen]
        exact minimaScan_len_mono dV0 t _
      rw [if_pos this]
    · rw [show minimaStep MAXM dV0 (some st) p =
          some (minimaScanStep dV0 st p) by simp [minimaStep, if_neg hfail]]
      refine ih _ ?_
      rw [minimaScanStep_Vmin]
      by_cases hacc : acceptedAt st p
      · rw [if_pos hacc]
        have : ¬ MAXM < st.Vmin.length + 1 := fun hc => hfail ⟨hacc, hc⟩
        simp
        omega
      · rw [if_neg hacc]; exact hst

/-- Invariant of the largest-entry scan: the result dominates the initial
value and every list entry, and it either keeps the initial accumulator or
reports an entry strictly above the initial value together with its
position. -/
theorem selMax_go (l : List ℚ) : ∀ (k : ℕ) (a : ℚ) (j : ℤ),
    a ≤ ((l.enumFrom k).foldl selMaxStep (a, j)).1 ∧
    (∀ v ∈ l, v ≤ ((l.enumFrom k).foldl selMaxStep (a, j)).1) ∧
    ((l.enumFrom k).foldl selMaxStep (a, j) = (a, j) ∨
      ∃ m, l.get? m = some ((l.enumFrom k).foldl selMaxStep (a, j)).1 ∧
        ((l.enumFrom k).foldl selMaxStep (a, j)).2 = ((k + m : ℕ) : ℤ) ∧
        a < ((l.enumFrom k).foldl selMaxStep (a, j)).1) := by
  induction l with
  | nil => intro k a j; simp
  | cons x t ih =>
    intro k a j
    simp only [List.enumFrom_cons, List.foldl_cons]
    by_cases hx : a < x
    · rw [show selMaxStep (a, j) (k, x) = (x, (k : ℤ)) by simp [selMaxStep, hx]]
      obtain ⟨h1, h2, h3⟩ := ih (k + 1) x (k : ℤ)
      refine ⟨hx.le.trans h1, ?_, ?_⟩
      · intro v hv
        rcases List.mem_cons.mp hv with rfl | hv
        · exact h1
        · exact h2 v hv
      · right
        rcases h3 with he | ⟨m, hm1, hm2, hm3⟩
        · exact ⟨0, by rw [he]; rfl, by rw [he]; simp, by rw [he]; exact hx⟩
        · exact ⟨m + 1, by simpa using hm1, by rw [hm2]; push_cast; ring,
            hx.trans hm3⟩
    · rw [show selMaxStep (a, j) (k, x) = (a, j) by simp [selMaxStep, hx]]
      obtain ⟨h1, h2, h3⟩ := ih (k + 1) a j
      refine ⟨h1, ?_, ?_⟩
      · intro v hv
        rcases List.mem_cons.mp hv with rfl | hv
        · exact (not_lt.mp hx).trans h1
        · exact h2 v hv
      · rcases h3 with he | ⟨m, hm1, hm2, hm3⟩
        · exact Or.inl he
        · exact Or.inr ⟨m + 1, by simpa using hm1, by rw [hm2]; push_cast; ring,
            hm3⟩

/-- Overwriting a counted entry with a non-counted value decrements the
count by one. -/
theorem countP_set_sub (q : ℚ → Bool) : ∀ (l : List ℚ) (k : ℕ) (w v : ℚ),
    l.get? k = some w → q w = true → q v = false →
    (l.set k v).countP q + 1 = l.countP q := by
  intro l
  induction l with
  | nil => intro k w v h; simp at h
  | cons a t ih =>
    intro k w v hget hw hv
    cases k with
    | zero =>
      rw [List.get?_cons_zero] at hget
      injection hget with hget
      subst hget
      simp [List.countP_cons, hw, hv]
    | succ k2 =>
      rw [List.get?_cons_succ] at hget
      simp only [List.set, List.countP_cons]
      have := ih k2 w v hget hw hv
      omega

/-- When at least n entries exceed the scan floor -1e30, the selection loop
returns n minima. -/
theorem pickBest_some : ∀ (n : ℕ) (l : List ℚ),
    n ≤ l.countP (fun v => decide ((-1e30 : ℚ) < v)) →
    ∃ vb, pickBest n l = some vb ∧ vb.length = n := by
  intro n
  induction n with
  | zero => intro l _; exact ⟨[], rfl, rfl⟩
  | succ n2 ih =>
    intro l hc
    have hpos : 0 < l.countP (fun v => decide ((-1e30 : ℚ) < v)) := by omega
    obtain ⟨v0, hv0m, hv0⟩ := List.countP_pos_iff.mp hpos
    have hv0' : (-1e30 : ℚ) < v0 := of_decide_eq_true hv0
    obtain ⟨g1, g2, g3⟩ := selMax_go l 0 (-1e30) (-1)
    rcases g3 with he | ⟨m, hm1, hm2, hm3⟩
    · exfalso
      have := g2 v0 hv0m
      rw [he] at this
      exact absurd (lt_of_lt_of_le hv0' this) (lt_irrefl _)
    · have hne : (selectMax l).2 ≠ -1 := by
        rw [selectMax, hm2]; omega
      have hsetc : (l.set (selectMax l).2.toNat (-2e30)).countP
          (fun v => decide ((-1e30 : ℚ) < v)) + 1 =
          l.countP (fun v => decide ((-1e30 : ℚ) < v)) := by
        apply countP_set_sub _ l _ (selectMax l).1
        · rw [selectMax, hm2]
          simpa using hm1
        · exact decide_eq_true hm3
        · exact decide_eq_false (by norm_num)
      obtain ⟨vb, hvb, hlen⟩ := ih (l.set (selectMax l).2.toNat (-2e30))
        (by omega)
      refine ⟨(selectMax l).1 :: vb, ?_, by simp [hlen]⟩
      rw [pickBest]
      rw [if_neg hne, hvb]
      rfl

/-- The score is at most 7: at most one point per calibration threshold. -/
theorem scoreOf_le_seven (Vbest : List ℚ) : scoreOf Vbest ≤ 7 := by
  have h1 := List.countP_le_length (l := List.zip Vbest thresholds)
    (p := fun q => decide (q.2 ≤ q.1))
  have h2 : (List.zip Vbest thresholds).length ≤ 7 := by
    rw [List.length_zip]
    have : thresholds.length = 7 := rfl
    omega
  exact le_trans h1 h2

/-- C10: in minima-scoring mode chi2one returns -1 exactly when the number
of tracked light-curve minima exceeds the capacity MAX_MINIMA (assuming the
recorded magnitudes are above the scan floor -1e30, as any physical
magnitude is); otherwise it returns an integer score between 0 and 7, and 0
when no minima are found. -/
theorem chi2one_minima_spec (MAXM : ℕ) (dV0 : ℚ) (data : List (ℚ × ℚ))
    (hv : ∀ v ∈ (minimaScan dV0 data).Vmin, (-1e30 : ℚ) < v) :
    (chi2one_minima MAXM dV0 data = -1 ↔
      MAXM < (minimaScan dV0 data).Vmin.length) ∧
    ((minimaScan dV0 data).Vmin.length ≤ MAXM →
      ∃ n : ℕ, n ≤ 7 ∧ chi2one_minima MAXM dV0 data = (n : ℚ) ∧
        ((minimaScan dV0 data).Vmin.length = 0 → n = 0)) := by
  have hrun : minimaRun MAXM dV0 data =
      if MAXM < (minimaScan dV0 data).Vmin.length then none
      else some (minimaScan dV0 data) :=
    minimaRun_go MAXM dV0 (data.enumFrom 0) ⟨0, 0, 0, 0, []⟩ (by simp)
  by_cases hcap : MAXM < (minimaScan dV0 data).Vmin.length
  · rw [if_pos hcap] at hrun
    have hres : chi2one_minima MAXM dV0 data = -1 := by
      rw [chi2one_minima, hrun]
    exact ⟨by rw [hres]; exact ⟨fun _ => hcap, fun _ => rfl⟩,
      fun hle => absurd hcap (not_lt.mpr hle)⟩
  · rw [if_neg hcap] at hrun
    by_cases hz : (minimaScan dV0 data).Vmin.length = 0
    · have hres : chi2one_minima MAXM dV0 data = 0 := by
        rw [chi2one_minima, hrun]
        simp [hz]
      refine ⟨?_, fun _ => ⟨0, by norm_num, by rw [hres]; norm_num, fun _ => rfl⟩⟩
      rw [hres]
      constructor
      · intro h0; exact absurd h0 (by norm_num)
      · intro hc; exact absurd hc hcap
    · have hcount : (minimaScan dV0 data).Vmin.countP
          (fun v => decide ((-1e30 : ℚ) < v)) =
          (minimaScan dV0 data).Vmin.length :=
        List.countP_eq_length.mpr (fun v hvm => decide_eq_true (hv v hvm))
      have hmin7 : min 7 (minimaScan dV0 data).Vmin.length ≤
          (minimaScan dV0 data).Vmin.countP (fun v => decide ((-1e30 : ℚ) < v)) := by
        rw [hcount]; exact min_le_right _ _
      obtain ⟨vb, hvb, hlen⟩ := pickBest_some _ _ hmin7
      have hres : chi2one_minima MAXM dV0 data = (scoreOf vb : ℚ) := by
        rw [chi2one_minima, hrun]
        simp [hz, hvb]
      refine ⟨?_, fun _ => ⟨scoreOf vb, scoreOf_le_seven vb, hres,
        fun h0 => absurd h0 hz⟩⟩
      rw [hres]
      constructor
      · intro hcast
        exfalso
        have : (0 : ℚ) ≤ (scoreOf vb : ℚ) := by positivity
        rw [hcast] at this
        norm_num at this
      · intro hc; exact absurd hc hcap

/-- C10 witness: an empty plotted curve records no minima and, with capacity
MAX_MINIMA = 0 not exceeded, scores 0. -/
theorem chi2one_minima_spec_witness :
    ∃ n : ℕ, n ≤ 7 ∧ chi2one_minima 0 0 [] = (n : ℚ) ∧
      ((minimaScan 0 []).Vmin.length = 0 → n = 0) :=
  (chi2one_minima_spec 0 0 [] (by simp [minimaScan])).2
    (by simp [minimaScan])

end Asteroid
